import Mathlib

/-!
# Verification of the minesweeper engine (`src/minesweeper.rs`)

A shallow embedding of the game engine: the board is a grid of tiles
holding per-tile truth (mine / neighbour count / safe-zone flag) and
player-visible state (swept / modifier), and the engine exposes the
player actions `sweep` and `flag` plus first-touch mine generation.

Machine integers (`usize`) are modelled as `Nat`; the signed casts in the
source (`as isize`) are modelled as `Int`.  The random number generator
used during mine placement is modelled as an explicit stream of proposed
positions (`picks : List (Nat × Nat)`): the rejection-sampling loop
consumes the stream in order and stops once the requested number of
mines is placed (or the stream is exhausted, which stands for the
unreached case of an unlucky infinite random stream).  `std::time::Instant`
carries no game-relevant information, so the start timestamp is `Option Unit`.
The event queue is a list to which events are pushed at the back, exactly
as `Vec::push` does.
-/

/-- `TileState` from the source: `Zero`..`Eight` or `Mine`. -/
inductive TileState where
  | Zero | One | Two | Three | Four | Five | Six | Seven | Eight | Mine
deriving DecidableEq, Repr

/-- `TileModifier` from the source (the source spells the unused variant `_Unsure`). -/
inductive TileModifier where
  | Flagged | Unsure
deriving DecidableEq, Repr

/-- `Tile` from the source. -/
structure Tile where
  state : TileState
  modifier : Option TileModifier
  swept : Bool
  safe : Bool
deriving DecidableEq, Repr

/-- `GameState` from the source. -/
inductive GameState where
  | Empty | Playing | GameOver | Victory
deriving DecidableEq, Repr

/-- `GameBoard` from the source.  The column-major `Vec<Vec<Tile>>` is
modelled as a total function on coordinates; `tiles x y` is `tiles[x][y]`.
Only coordinates with `x < width` and `y < height` are meaningful. -/
structure GameBoard where
  tiles : Nat → Nat → Tile
  width : Nat
  height : Nat
  mines : Nat
  flags : Nat
  valid_flags : Nat

/-- `GameEvent` from the source. -/
inductive GameEvent where
  | RevealMine (x y : Nat) (t : Tile)
  | RevealTile (x y : Nat) (t : Tile)
  | FlagTile (x y : Nat) (t : Tile)
  | SweepDone
  | SweepBegin
  | InitDone
  | FlagAllMines
  | GameStart
  | GameEnd (b : GameBoard)

/-- `GameSettings` from the source. -/
structure GameSettings where
  width : Nat
  height : Nat
  mines : Nat

/-- `Minesweeper` from the source.  `events` is the `Events` vector, oldest
event first (`Events::add` pushes at the back). -/
structure Minesweeper where
  board : GameBoard
  state : GameState
  start_time : Option Unit
  events : List GameEvent

/-- The 8 neighbour offsets `SCAN` from the source. -/
def SCAN : List (Int × Int) :=
  [(-1, -1), (0, -1), (1, -1), (-1, 0), (1, 0), (-1, 1), (0, 1), (1, 1)]

/-- The 9 safe-zone offsets `SAFE_ZONE` from the source. -/
def SAFE_ZONE : List (Int × Int) :=
  [(-1, -1), (0, -1), (1, -1), (-1, 0), (0, 0), (1, 0), (-1, 1), (0, 1), (1, 1)]

/-- Write one tile of the board (`self.board.tiles[x][y] = t`). -/
def GameBoard.setTile (b : GameBoard) (x y : Nat) (t : Tile) : GameBoard :=
  { b with tiles := fun a c => if a = x ∧ c = y then t else b.tiles a c }

/-- Push an event at the back of the queue (`Events::add`). -/
def Minesweeper.addEvent (g : Minesweeper) (e : GameEvent) : Minesweeper :=
  { g with events := g.events ++ [e] }

/-- The blank tile every board cell starts as in `Minesweeper::new`. -/
def blankTile : Tile :=
  { state := TileState.Zero, modifier := none, swept := false, safe := false }

/-- The freshly constructed game that `Minesweeper::new` returns on success. -/
def mkGame (s : GameSettings) : Minesweeper :=
  { board :=
      { tiles := fun _ _ => blankTile
        width := s.width
        height := s.height
        mines := s.mines
        flags := 0
        valid_flags := 0 }
    state := GameState.Empty
    start_time := none
    events := [] }

/-- Wrap an integer into the 64-bit `isize` range `[-2^63, 2^63)`
(two's complement).  This is the deterministic semantics of `as isize`
casts, and of overflowing `isize` arithmetic in release builds. -/
def isizeWrap (x : Int) : Int :=
  (x + 2 ^ 63) % 2 ^ 64 - 2 ^ 63

/-- `x as isize` for a `usize` value: reduce to the 64-bit range and
reinterpret in two's complement. -/
def usizeAsIsize (n : Nat) : Int :=
  isizeWrap ((n % 2 ^ 64 : Nat) : Int)

/-- `Minesweeper::new`: fails on a zero dimension, or when
`(width*height) as isize - 9 < mines as isize`.  A `usize` value is a
`Nat` below `2^64`; the `as isize` casts wrap (two's complement), so the
guard is computed over wrapped values, exactly as the source does.  The
`usize` product `width * height` and the `isize` subtraction `- 9` are
modelled with release-build wrapping semantics (a debug build would
panic on those overflows instead; either way the guard differs from the
exact arithmetic `mines ≤ width·height − 9` once values wrap). -/
def Minesweeper.new (s : GameSettings) : Except String Minesweeper :=
  if s.width = 0 ∨ s.height = 0 then
    Except.error "Can't make game board with zero length dimension"
  else if isizeWrap (usizeAsIsize (s.width * s.height) - 9) <
      usizeAsIsize s.mines then
    Except.error "Not enough space for mines"
  else
    Except.ok (mkGame s)

/-- The clipped safe-zone list built at the top of `Minesweeper::generate`:
each `SAFE_ZONE` offset shifted to `(avoid_x, avoid_y)` and kept only when
it lands on the board. -/
def validSafezone (avoidX avoidY width height : Nat) : List (Nat × Nat) :=
  SAFE_ZONE.filterMap (fun pos =>
    let ax : Int := pos.1 + (avoidX : Int)
    let ay : Int := pos.2 + (avoidY : Int)
    if 0 ≤ ax ∧ 0 ≤ ay ∧ ax < (width : Int) ∧ ay < (height : Int) then
      some (ax.toNat, ay.toNat)
    else
      none)

/-- The loop marking every clipped safe-zone cell `safe = true`. -/
def markSafe (b : GameBoard) (l : List (Nat × Nat)) : GameBoard :=
  l.foldl (fun b p => b.setTile p.1 p.2 { b.tiles p.1 p.2 with safe := true }) b

/-- The rejection-sampling mine-placement loop (`while i != self.board.mines`):
consume proposed positions in order, skip a position that is already a mine
or is marked safe, otherwise place a mine and count it.  Returns the board
and the final counter `i`. -/
def placeMines : List (Nat × Nat) → GameBoard → Nat → GameBoard × Nat
  | [], b, i => (b, i)
  | p :: rest, b, i =>
    if i = b.mines then (b, i)
    else
      let tile := b.tiles p.1 p.2
      if tile.state = TileState.Mine ∨ tile.safe = true then
        placeMines rest b i
      else
        placeMines rest (b.setTile p.1 p.2 { tile with state := TileState.Mine }) (i + 1)

/-- One step of the neighbour-count pass: the increment `match` from the
source, applied to the neighbour of a mine reached by offset `off` from
`(x, y)`, provided it is on the board and not itself a mine. -/
def incState : TileState → TileState
  | TileState.Zero => TileState.One
  | TileState.One => TileState.Two
  | TileState.Two => TileState.Three
  | TileState.Three => TileState.Four
  | TileState.Four => TileState.Five
  | TileState.Five => TileState.Six
  | TileState.Six => TileState.Seven
  | TileState.Seven => TileState.Eight
  | _ => TileState.Eight

/-- Increment the count of the tile reached from `(x, y)` by `off`, with the
source's bounds check and not-a-mine check. -/
def incAt (x y : Nat) (b : GameBoard) (off : Int × Int) : GameBoard :=
  let nx : Int := (x : Int) + off.1
  let ny : Int := (y : Int) + off.2
  if nx ≥ (b.width : Int) ∨ nx < 0 ∨ ny ≥ (b.height : Int) ∨ ny < 0 then b
  else
    let px := nx.toNat
    let py := ny.toNat
    if (b.tiles px py).state ≠ TileState.Mine then
      b.setTile px py { b.tiles px py with state := incState (b.tiles px py).state }
    else b

/-- The body of the neighbour-count double loop for one cell `(x, y)`:
if it currently holds a mine, bump each of its up-to-8 neighbours. -/
def procCell (b : GameBoard) (p : Nat × Nat) : GameBoard :=
  if (b.tiles p.1 p.2).state = TileState.Mine then
    SCAN.foldl (incAt p.1 p.2) b
  else b

/-- The cell visiting order of `for x in 0..width { for y in 0..height }`. -/
def allCoords (width height : Nat) : List (Nat × Nat) :=
  (List.range width).flatMap (fun x => (List.range height).map (fun y => (x, y)))

/-- The whole neighbour-count pass of `Minesweeper::generate`. -/
def countPass (b : GameBoard) : GameBoard :=
  (allCoords b.width b.height).foldl procCell b

/-- The board and final placement counter produced before the
neighbour-count pass of `Minesweeper::generate`: mark the clipped safe
zone, then run the rejection-sampling loop. -/
def placedPair (picks : List (Nat × Nat)) (b0 : GameBoard) (avoidX avoidY : Nat) :
    GameBoard × Nat :=
  placeMines picks (markSafe b0 (validSafezone avoidX avoidY b0.width b0.height)) 0

/-- `Minesweeper::generate`, with the random stream made explicit. -/
def generate (picks : List (Nat × Nat)) (g : Minesweeper) (avoidX avoidY : Nat) :
    Minesweeper :=
  let g := g.addEvent GameEvent.GameStart
  let b := countPass (placedPair picks g.board avoidX avoidY).1
  ({ g with
      board := b
      start_time := some ()
      state := GameState.Playing }).addEvent GameEvent.InitDone

/-- Mark the tile at `(x, y)` swept (`self.board.tiles[x][y].swept = true`). -/
def Minesweeper.setSwept (g : Minesweeper) (x y : Nat) : Minesweeper :=
  { g with board := g.board.setTile x y { g.board.tiles x y with swept := true } }

/-- The body of the flood-fill `for` loop for one `SCAN` offset: the front
of the queue is read back from the queue (`scan_list[0]`) at every offset,
exactly as the source does; a neighbour that is on the board and not yet
swept is enqueued at the back, marked swept, and announced with
`RevealTile`. -/
def sweepStep (st : Minesweeper × List (Nat × Nat)) (off : Int × Int) :
    Minesweeper × List (Nat × Nat) :=
  match st.2.head? with
  | none => st
  | some front =>
    let old_tile := st.1.board.tiles front.1 front.2
    if old_tile.state ≠ TileState.Zero then st
    else
      let nx : Int := (front.1 : Int) + off.1
      let ny : Int := (front.2 : Int) + off.2
      if nx ≥ (st.1.board.width : Int) ∨ ny ≥ (st.1.board.height : Int) ∨
          nx < 0 ∨ ny < 0 then st
      else
        let px := nx.toNat
        let py := ny.toNat
        let tile := st.1.board.tiles px py
        if tile.swept then st
        else
          let g' := st.1.setSwept px py
          let g' := g'.addEvent
            (GameEvent.RevealTile px py (g'.board.tiles px py))
          (g', st.2 ++ [(px, py)])

/-- The flood-fill `for` loop over the 8 `SCAN` offsets. -/
def sweepInner (g : Minesweeper) (q : List (Nat × Nat)) :
    Minesweeper × List (Nat × Nat) :=
  SCAN.foldl sweepStep (g, q)

/-- The flood-fill `while scan_list.len() > 0` loop: process the 8
neighbours of the front of the queue, then pop the front.  The source loop
needs no fuel; here the fuel argument only bounds the recursion depth and
`sweep` passes `width * height + 1`, which `sweepLoopF_measure` below shows
is never exhausted. -/
def sweepLoopF : Nat → Minesweeper → List (Nat × Nat) → Minesweeper
  | _, g, [] => g
  | 0, g, _ :: _ => g
  | fuel + 1, g, front :: rest =>
    let st := sweepInner g (front :: rest)
    sweepLoopF fuel st.1 st.2.tail

/-- `Minesweeper::sweep`. -/
def sweep (picks : List (Nat × Nat)) (g : Minesweeper) (x y : Nat) : Minesweeper :=
  let g := if GameState.Empty = g.state then generate picks g x y else g
  if g.state ≠ GameState.Playing then g
  else
    let tile := g.board.tiles x y
    if tile.modifier.isSome then g
    else
      let g := g.setSwept x y
      let g := g.addEvent (GameEvent.RevealTile x y (g.board.tiles x y))
      if tile.state = TileState.Mine then
        let g := g.addEvent (GameEvent.RevealMine x y tile)
        let g := g.addEvent (GameEvent.GameEnd g.board)
        { g with state := GameState.GameOver }
      else
        let g := g.addEvent GameEvent.SweepBegin
        let g := sweepLoopF (g.board.width * g.board.height + 1) g [(x, y)]
        g.addEvent GameEvent.SweepDone

/-- `Minesweeper::flag`. -/
def flag (g : Minesweeper) (x y : Nat) : Minesweeper :=
  if g.state ≠ GameState.Playing ∨ (g.board.tiles x y).swept then g
  else
    let tile := g.board.tiles x y
    if tile.modifier = some TileModifier.Flagged then
      let tile' := { tile with modifier := none }
      let b := g.board.setTile x y tile'
      let b := if tile'.state = TileState.Mine then
          { b with valid_flags := b.valid_flags - 1 } else b
      let b := { b with flags := b.flags - 1 }
      ({ g with board := b }).addEvent (GameEvent.FlagTile x y tile')
    else if tile.modifier = none then
      let tile' := { tile with modifier := some TileModifier.Flagged }
      let b := g.board.setTile x y tile'
      let b := { b with flags := b.flags + 1 }
      let b := if tile'.state = TileState.Mine then
          { b with valid_flags := b.valid_flags + 1 } else b
      let g := ({ g with board := b }).addEvent (GameEvent.FlagTile x y tile')
      if g.board.valid_flags = g.board.mines then
        { g.addEvent GameEvent.FlagAllMines with state := GameState.Victory }
      else g
    else g

/-! ## Specification-side definitions -/

/-- A coordinate is on the board. -/
def inBounds (b : GameBoard) (p : Nat × Nat) : Prop :=
  p.1 < b.width ∧ p.2 < b.height

instance (b : GameBoard) (p : Nat × Nat) : Decidable (inBounds b p) := by
  unfold inBounds; infer_instance

/-- The in-bounds cell reached from `p` by offset `off` on a
`width × height` board, if any. -/
def targetOf (p : Nat × Nat) (off : Int × Int) (width height : Nat) :
    Option (Nat × Nat) :=
  let nx : Int := (p.1 : Int) + off.1
  let ny : Int := (p.2 : Int) + off.2
  if nx ≥ (width : Int) ∨ nx < 0 ∨ ny ≥ (height : Int) ∨ ny < 0 then none
  else some (nx.toNat, ny.toNat)

/-- The in-bounds 8-neighbours of a cell. -/
def neighborsOf (p : Nat × Nat) (width height : Nat) : List (Nat × Nat) :=
  SCAN.filterMap (fun off => targetOf p off width height)

/-- All on-board positions, as a finite set. -/
def boardPositions (b : GameBoard) : Finset (Nat × Nat) :=
  Finset.range b.width ×ˢ Finset.range b.height

/-- The on-board positions currently holding a mine. -/
def minesFinset (b : GameBoard) : Finset (Nat × Nat) :=
  (boardPositions b).filter (fun p => (b.tiles p.1 p.2).state = TileState.Mine)

/-- How many tiles hold a mine. -/
def mineCount (b : GameBoard) : Nat :=
  (minesFinset b).card

/-- How many mine tiles currently carry a flag. -/
def flaggedMineCount (b : GameBoard) : Nat :=
  ((minesFinset b).filter
    (fun p => (b.tiles p.1 p.2).modifier = some TileModifier.Flagged)).card

/-- How many on-board tiles are not yet swept (the flood-fill measure). -/
def unsweptCount (b : GameBoard) : Nat :=
  ((boardPositions b).filter (fun p => ¬(b.tiles p.1 p.2).swept = true)).card

/-- How many of a cell's in-bounds 8-neighbours hold a mine. -/
def mineNeighborCount (b : GameBoard) (p : Nat × Nat) : Nat :=
  (neighborsOf p b.width b.height).countP
    (fun q => decide ((b.tiles q.1 q.2).state = TileState.Mine))

/-- The tile state denoting a neighbour count of `n` (0 is `Empty`/`Zero`;
counts are capped at `Eight`, which `mineNeighborCount_le_eight` shows is
never reached by a real count). -/
def ofCount : Nat → TileState
  | 0 => TileState.Zero
  | 1 => TileState.One
  | 2 => TileState.Two
  | 3 => TileState.Three
  | 4 => TileState.Four
  | 5 => TileState.Five
  | 6 => TileState.Six
  | 7 => TileState.Seven
  | _ => TileState.Eight

/-- Iterate the neighbour-count increment. -/
def addN (s : TileState) : Nat → TileState
  | 0 => s
  | n + 1 => incState (addN s n)

/-- The cell `(a, b)` lies in the 3×3 neighbourhood of `(x, y)` clipped to
the board bounds. -/
def InSafeZone (x y a b width height : Nat) : Prop :=
  a < width ∧ b < height ∧ ((a : Int) - (x : Int)).natAbs ≤ 1 ∧
    ((b : Int) - (y : Int)).natAbs ≤ 1

instance (x y a b w h : Nat) : Decidable (InSafeZone x y a b w h) := by
  unfold InSafeZone; infer_instance

/-- The cell is on the board and shows a zero count. -/
def EmptyAt (b : GameBoard) (p : Nat × Nat) : Prop :=
  inBounds b p ∧ (b.tiles p.1 p.2).state = TileState.Zero

/-- One hop between adjacent zero-count cells. -/
def regionStep (b : GameBoard) (p q : Nat × Nat) : Prop :=
  EmptyAt b p ∧ EmptyAt b q ∧ q ∈ neighborsOf p b.width b.height

/-- `p` belongs to the maximal 8-connected region of zero-count cells
containing `s`. -/
def InRegion (b : GameBoard) (s p : Nat × Nat) : Prop :=
  Relation.ReflTransGen (regionStep b) s p

/-- `p` belongs to the cascade closure of `s`: the maximal 8-connected
zero-count region through `s` together with every cell adjacent to it. -/
def InClosure (b : GameBoard) (s p : Nat × Nat) : Prop :=
  InRegion b s p ∨ ∃ q, InRegion b s q ∧ p ∈ neighborsOf q b.width b.height

/-- Recognize the `FlagAllMines` event. -/
def isFlagAllMines : GameEvent → Bool
  | GameEvent.FlagAllMines => true
  | _ => false

/-- Loop invariant of the flood fill, relative to the board `b0` as it was
when the sweep began (start cell `s` already marked swept, everything else
untouched): dimensions are unchanged, tiles change only in their `swept`
flag, queued cells are on the board and swept, every swept on-board cell
lies in the cascade closure of `s`, `s` is swept, and a swept zero-count
cell that is no longer queued has all its neighbours swept. -/
def CascadeInv (b0 : GameBoard) (s : Nat × Nat) (g : Minesweeper)
    (q : List (Nat × Nat)) : Prop :=
  g.board.width = b0.width ∧ g.board.height = b0.height ∧
  (∀ a c, g.board.tiles a c =
    { b0.tiles a c with swept := (g.board.tiles a c).swept }) ∧
  (∀ p ∈ q, inBounds b0 p ∧ (g.board.tiles p.1 p.2).swept = true) ∧
  (∀ a c, (g.board.tiles a c).swept = true → inBounds b0 (a, c) →
    InClosure b0 s (a, c)) ∧
  (g.board.tiles s.1 s.2).swept = true ∧
  (∀ a c, a < b0.width → c < b0.height → (g.board.tiles a c).swept = true →
    (b0.tiles a c).state = TileState.Zero → (a, c) ∉ q →
    ∀ t ∈ neighborsOf (a, c) b0.width b0.height,
      (g.board.tiles t.1 t.2).swept = true)

/-! ## Concrete games used in explicit runs

A 10×1 board with one mine.  Construction succeeds (`1 ≤ 10·1 − 9`); the
first sweep at `(0, 0)` generates the board with the mine proposed — and
accepted — at `(5, 0)`, then floods cells `(0,0)`–`(4,0)`. -/

/-- Settings of the concrete 10×1 demonstration game. -/
def demoSettings : GameSettings :=
  { width := 10, height := 1, mines := 1 }

/-- The freshly constructed demonstration game. -/
def demoGame : Minesweeper := mkGame demoSettings

/-- The demonstration game after its first sweep at `(0, 0)` (the mine
lands at `(5, 0)`; cells `(0,0)`–`(4,0)` get swept). -/
def demoSwept : Minesweeper := sweep [(5, 0)] demoGame 0 0

/-- `demoSwept` after flagging the unswept zero-count cell `(7, 0)`. -/
def demoFlagged : Minesweeper := flag demoSwept 7 0

/-- `demoFlagged` after sweeping `(9, 0)`: the cascade reaches the flagged
cell `(7, 0)`. -/
def demoCascade : Minesweeper := sweep [] demoFlagged 9 0

/-- `demoFlagged` after flagging the mine cell `(5, 0)`: the last mine is
flagged, so the game is won. -/
def demoVictory : Minesweeper := flag demoFlagged 5 0

/-- An engine whose game is lost. -/
def demoOver : Minesweeper :=
  { mkGame { width := 3, height := 3, mines := 0 } with state := GameState.GameOver }

/-- An engine whose game is won. -/
def demoWon : Minesweeper :=
  { mkGame { width := 3, height := 3, mines := 0 } with state := GameState.Victory }

/-- The demonstration game right after generation (what the first sweep at
`(0, 0)` builds before it starts revealing). -/
def demoGen : Minesweeper := generate [(5, 0)] demoGame 0 0

/-! ## Structural lemmas -/

theorem setTile_tiles (b : GameBoard) (x y : Nat) (t : Tile) (a c : Nat) :
    (b.setTile x y t).tiles a c = if a = x ∧ c = y then t else b.tiles a c := rfl

@[simp]
theorem setTile_width (b : GameBoard) (x y : Nat) (t : Tile) :
    (b.setTile x y t).width = b.width := rfl

@[simp]
theorem setTile_height (b : GameBoard) (x y : Nat) (t : Tile) :
    (b.setTile x y t).height = b.height := rfl

@[simp]
theorem setTile_mines (b : GameBoard) (x y : Nat) (t : Tile) :
    (b.setTile x y t).mines = b.mines := rfl

@[simp]
theorem setTile_flags (b : GameBoard) (x y : Nat) (t : Tile) :
    (b.setTile x y t).flags = b.flags := rfl

@[simp]
theorem setTile_valid (b : GameBoard) (x y : Nat) (t : Tile) :
    (b.setTile x y t).valid_flags = b.valid_flags := rfl

@[simp]
theorem addEvent_board (g : Minesweeper) (e : GameEvent) :
    (g.addEvent e).board = g.board := rfl

@[simp]
theorem addEvent_state (g : Minesweeper) (e : GameEvent) :
    (g.addEvent e).state = g.state := rfl

@[simp]
theorem setSwept_state (g : Minesweeper) (x y : Nat) :
    (g.setSwept x y).state = g.state := rfl

theorem sweepStep_state (st : Minesweeper × List (Nat × Nat)) (off : Int × Int) :
    (sweepStep st off).1.state = st.1.state := by
  unfold sweepStep
  rcases st.2.head? with _ | front
  · rfl
  · dsimp only
    split
    · rfl
    · split
      · rfl
      · split <;> rfl

theorem sweepFold_state (l : List (Int × Int)) :
    ∀ st : Minesweeper × List (Nat × Nat),
      ((l.foldl sweepStep st).1.state = st.1.state) := by
  induction l with
  | nil => intro st; rfl
  | cons off rest ih =>
    intro st
    rw [List.foldl_cons, ih, sweepStep_state]

theorem sweepLoopF_state :
    ∀ (fuel : Nat) (g : Minesweeper) (q : List (Nat × Nat)),
      (sweepLoopF fuel g q).state = g.state := by
  intro fuel
  induction fuel with
  | zero =>
    intro g q
    cases q <;> rfl
  | succ n ih =>
    intro g q
    cases q with
    | nil => rfl
    | cons front rest =>
      rw [sweepLoopF, ih]
      exact sweepFold_state SCAN (g, front :: rest)

@[simp]
theorem generate_state (picks : List (Nat × Nat)) (g : Minesweeper) (x y : Nat) :
    (generate picks g x y).state = GameState.Playing := rfl

/-- C9: once the game state is GameOver or Victory, `sweep` and `flag` are
complete no-ops: board, counters (`flags`, `valid_flags`), game state and
event queue are all left exactly as they were. -/
theorem terminal_noop (picks : List (Nat × Nat)) (g : Minesweeper) (x y : Nat)
    (h : g.state = GameState.GameOver ∨ g.state = GameState.Victory) :
    sweep picks g x y = g ∧ flag g x y = g := by
  rcases h with h | h <;> constructor <;> simp [sweep, flag, h]

/-- Witness for `terminal_noop` at a concrete lost game. -/
theorem terminal_noop_witness :
    sweep [] demoOver 0 0 = demoOver ∧ flag demoOver 0 0 = demoOver :=
  terminal_noop [] demoOver 0 0 (Or.inl rfl)

theorem sweep_state_cases (picks : List (Nat × Nat)) (g : Minesweeper) (x y : Nat) :
    (sweep picks g x y).state = g.state ∨
    (sweep picks g x y).state = GameState.Playing ∨
    (sweep picks g x y).state = GameState.GameOver := by
  unfold sweep
  by_cases hE : GameState.Empty = g.state
  · rw [if_pos hE]
    simp only []
    split_ifs <;> simp [sweepLoopF_state]
  · rw [if_neg hE]
    simp only []
    split_ifs <;> simp [sweepLoopF_state]

/-- C10: `sweep` never makes the game state Victory — Victory can only be
entered by a `flag` call — and from Playing a sweep leaves the state
Playing or ends the game in GameOver. -/
theorem sweep_never_victory (picks : List (Nat × Nat)) (g : Minesweeper)
    (x y : Nat) (h : g.state ≠ GameState.Victory) :
    (sweep picks g x y).state ≠ GameState.Victory ∧
    (g.state = GameState.Playing →
      (sweep picks g x y).state = GameState.Playing ∨
      (sweep picks g x y).state = GameState.GameOver) := by
  rcases sweep_state_cases picks g x y with hc | hc | hc
  · exact ⟨by rw [hc]; exact h, fun hp => Or.inl (hc.trans hp)⟩
  · exact ⟨by rw [hc]; simp, fun _ => Or.inl hc⟩
  · exact ⟨by rw [hc]; simp, fun _ => Or.inr hc⟩

/-- Witness for `sweep_never_victory`: the first sweep of the concrete
10×1 game leaves the state Playing, not Victory. -/
theorem sweep_never_victory_witness :
    demoSwept.state ≠ GameState.Victory ∧
    (demoGame.state = GameState.Playing →
      demoSwept.state = GameState.Playing ∨
      demoSwept.state = GameState.GameOver) :=
  sweep_never_victory [(5, 0)] demoGame 0 0 (by decide)

theorem isizeWrap_eq_self {x : Int} (h1 : -(2 ^ 63) ≤ x) (h2 : x < 2 ^ 63) :
    isizeWrap x = x := by
  unfold isizeWrap
  omega

theorem usizeAsIsize_of_lt {n : Nat} (h : n < 2 ^ 63) :
    usizeAsIsize n = (n : Int) := by
  unfold usizeAsIsize
  rw [Nat.mod_eq_of_lt (by omega)]
  exact isizeWrap_eq_self (by omega) (by omega)

/-- On parameters where nothing wraps (`width·height < 2^63` and
`mines < 2^63`), the `as isize` casts are exact and construction succeeds
precisely under the claimed bound `mines ≤ width·height − 9`; the bound
fails on the full `usize` domain, see `construction_overflow_bug`. -/
theorem construction_bounds_in_range (s : GameSettings)
    (hwh : s.width * s.height < 2 ^ 63) (hm : s.mines < 2 ^ 63) :
    ((∃ g, Minesweeper.new s = Except.ok g) ↔
      1 ≤ s.width ∧ 1 ≤ s.height ∧
        (s.mines : Int) ≤ (s.width : Int) * (s.height : Int) - 9) ∧
    ((∃ msg, Minesweeper.new s = Except.error msg) ↔
      (s.width = 0 ∨ s.height = 0 ∨
        (s.width : Int) * (s.height : Int) - 9 < (s.mines : Int))) := by
  have hg1 : usizeAsIsize (s.width * s.height) =
      ((s.width * s.height : Nat) : Int) := usizeAsIsize_of_lt hwh
  have hg2 : usizeAsIsize s.mines = (s.mines : Int) := usizeAsIsize_of_lt hm
  have hg3 : isizeWrap (((s.width * s.height : Nat) : Int) - 9) =
      ((s.width * s.height : Nat) : Int) - 9 := by
    have hx1 : (0 : Int) ≤ ((s.width * s.height : Nat) : Int) :=
      Int.natCast_nonneg _
    have hx2 : ((s.width * s.height : Nat) : Int) < 2 ^ 63 := by
      exact_mod_cast hwh
    exact isizeWrap_eq_self (by omega) (by omega)
  unfold Minesweeper.new
  rw [hg1, hg2, hg3]
  split_ifs with h1 h2
  · refine ⟨iff_of_false ?_ ?_, iff_of_true ⟨_, rfl⟩ ?_⟩
    · rintro ⟨g, hg⟩
      exact hg
    · rintro ⟨hw, hh, _⟩
      omega
    · rcases h1 with h | h
      · exact Or.inl h
      · exact Or.inr (Or.inl h)
  · push_cast at h2
    refine ⟨iff_of_false ?_ ?_, iff_of_true ⟨_, rfl⟩ (Or.inr (Or.inr h2))⟩
    · rintro ⟨g, hg⟩
      exact hg
    · rintro ⟨hw, hh, hm⟩
      linarith
  · push_neg at h1
    push_cast at h2
    push_neg at h2
    refine ⟨iff_of_true ⟨_, rfl⟩ ⟨by omega, by omega, h2⟩, iff_of_false ?_ ?_⟩
    · rintro ⟨msg, hmsg⟩
      exact hmsg
    · rintro (h | h | h)
      · exact h1.1 h
      · exact h1.2 h
      · linarith

/-- C8: the construction bound fails on the full parameter domain.  With
`width = height = 4` and `mines = 2^63`, the cast `mines as isize` wraps
to `-2^63`, the guard `(width*height) as isize - 9 < mines as isize`
(that is, `7 < -2^63`) is false, and construction *succeeds* even though
`mines > width·height − 9` — the very situation the guard exists to rule
out, since the mine-placement loop can never place `2^63` mines on 16
cells.  The claim's required `InvalidConfiguration` failure does not
happen, so the code, not the claim, is at fault here. -/
theorem construction_overflow_bug :
    Minesweeper.new { width := 4, height := 4, mines := 2 ^ 63 } =
      Except.ok (mkGame { width := 4, height := 4, mines := 2 ^ 63 }) ∧
    (4 * 4 : Int) - 9 < ((2 ^ 63 : Nat) : Int) :=
  ⟨rfl, by decide⟩

/-- C5 (amended): a tile carrying any modifier is never swept *directly*:
once the game is past generation, `sweep` on a modified tile is a complete
no-op.  (The flood fill itself checks only `swept`, not the modifier, so a
flagged tile *can* be marked swept by the cascade — see
`cascade_sweeps_flagged_cex`.) -/
theorem direct_sweep_rejects_modified (picks : List (Nat × Nat))
    (g : Minesweeper) (x y : Nat)
    (hne : g.state ≠ GameState.Empty)
    (hmod : (g.board.tiles x y).modifier ≠ none) :
    sweep picks g x y = g := by
  have hE : ¬(GameState.Empty = g.state) := fun h => hne h.symm
  have h2 : (g.board.tiles x y).modifier.isSome = true :=
    Option.ne_none_iff_isSome.mp hmod
  unfold sweep
  rw [if_neg hE]
  by_cases hP : g.state = GameState.Playing
  · rw [if_neg (by simp [hP])]
    simp only [h2, if_true]
  · rw [if_pos hP]

/-- Witness for `direct_sweep_rejects_modified`: sweeping the flagged cell
`(7, 0)` of the concrete game changes nothing. -/
theorem direct_sweep_rejects_modified_witness :
    sweep [] demoFlagged 7 0 = demoFlagged :=
  direct_sweep_rejects_modified [] demoFlagged 7 0 (by decide) (by decide)

/-- C5 counterexample: in a reachable game (10×1 board, one mine at
`(5, 0)`, first sweep at `(0, 0)`, then flag `(7, 0)`, then sweep
`(9, 0)`), the cascade marks the flagged tile `(7, 0)` swept, so a swept
tile *can* carry a modifier, contradicting the claimed invariant. -/
theorem cascade_sweeps_flagged_cex :
    Minesweeper.new demoSettings = Except.ok demoGame ∧
    demoFlagged.state = GameState.Playing ∧
    (demoFlagged.board.tiles 7 0).modifier = some TileModifier.Flagged ∧
    (demoFlagged.board.tiles 7 0).swept = false ∧
    (demoCascade.board.tiles 7 0).swept = true ∧
    (demoCascade.board.tiles 7 0).modifier = some TileModifier.Flagged :=
  ⟨rfl, rfl, by decide, by decide, by decide, by decide⟩

theorem flag_place_eq (g : Minesweeper) (x y : Nat)
    (hstate : g.state = GameState.Playing)
    (hswept : (g.board.tiles x y).swept = false)
    (hmod : (g.board.tiles x y).modifier = none) :
    flag g x y =
      (let tile' := { g.board.tiles x y with modifier := some TileModifier.Flagged }
      let b := g.board.setTile x y tile'
      let b := { b with flags := b.flags + 1 }
      let b := if tile'.state = TileState.Mine then
          { b with valid_flags := b.valid_flags + 1 } else b
      let g' := ({ g with board := b }).addEvent (GameEvent.FlagTile x y tile')
      if g'.board.valid_flags = g'.board.mines then
        { g'.addEvent GameEvent.FlagAllMines with state := GameState.Victory }
      else g') := by
  unfold flag
  rw [if_neg (by simp [hstate, hswept])]
  rw [if_neg (by simp [hmod]), if_pos hmod]

theorem flag_unflag_eq (g : Minesweeper) (x y : Nat)
    (hstate : g.state = GameState.Playing)
    (hswept : (g.board.tiles x y).swept = false)
    (hmod : (g.board.tiles x y).modifier = some TileModifier.Flagged) :
    flag g x y =
      (let tile' := { g.board.tiles x y with modifier := none }
      let b := g.board.setTile x y tile'
      let b := if tile'.state = TileState.Mine then
          { b with valid_flags := b.valid_flags - 1 } else b
      let b := { b with flags := b.flags - 1 }
      ({ g with board := b }).addEvent (GameEvent.FlagTile x y tile')) := by
  unfold flag
  rw [if_neg (by simp [hstate, hswept])]
  rw [if_pos hmod]

/-- C7 (amended): on an unswept tile with *no* modifier, and provided the
first flag does not complete the game (the updated `valid_flags` differs
from `mines`), flagging twice restores `flags` and `valid_flags` and
leaves the tile unmodified. -/
theorem flag_toggle_reversible (g : Minesweeper) (x y : Nat)
    (hstate : g.state = GameState.Playing)
    (hswept : (g.board.tiles x y).swept = false)
    (hmod : (g.board.tiles x y).modifier = none)
    (hnv : (if (g.board.tiles x y).state = TileState.Mine then g.board.valid_flags + 1
            else g.board.valid_flags) ≠ g.board.mines) :
    (flag (flag g x y) x y).board.flags = g.board.flags ∧
    (flag (flag g x y) x y).board.valid_flags = g.board.valid_flags ∧
    ((flag (flag g x y) x y).board.tiles x y).modifier = none := by
  by_cases hm : (g.board.tiles x y).state = TileState.Mine
  · rw [flag_place_eq g x y hstate hswept hmod]
    rw [if_pos hm] at hnv
    simp only [hm, if_true]
    rw [if_neg (by simpa using hnv)]
    rw [flag_unflag_eq _ x y (by simp [Minesweeper.addEvent]; exact hstate)
      (by simp [Minesweeper.addEvent, GameBoard.setTile, hswept])
      (by simp [Minesweeper.addEvent, GameBoard.setTile])]
    simp [Minesweeper.addEvent, GameBoard.setTile, hm]
  · rw [flag_place_eq g x y hstate hswept hmod]
    rw [if_neg hm] at hnv
    simp only [hm, if_false]
    rw [if_neg (by simpa using hnv)]
    rw [flag_unflag_eq _ x y (by simp [Minesweeper.addEvent]; exact hstate)
      (by simp [Minesweeper.addEvent, GameBoard.setTile, hswept])
      (by simp [Minesweeper.addEvent, GameBoard.setTile])]
    simp [Minesweeper.addEvent, GameBoard.setTile, hm]

/-- Witness for `flag_toggle_reversible` on the unswept non-mine cell
`(8, 0)` of the concrete game. -/
theorem flag_toggle_reversible_witness :
    (flag (flag demoSwept 8 0) 8 0).board.flags = demoSwept.board.flags ∧
    (flag (flag demoSwept 8 0) 8 0).board.valid_flags = demoSwept.board.valid_flags ∧
    ((flag (flag demoSwept 8 0) 8 0).board.tiles 8 0).modifier = none :=
  flag_toggle_reversible demoSwept 8 0 (by decide) (by decide) (by decide) (by decide)

/-- C7 counterexample: `(7, 0)` is unswept but already flagged in the
reachable game `demoFlagged`; flagging it twice leaves it *flagged*, not
unmodified, so the claim fails for unswept tiles that carry a modifier. -/
theorem flag_toggle_flagged_cex :
    demoFlagged.state = GameState.Playing ∧
    (demoFlagged.board.tiles 7 0).swept = false ∧
    ((flag (flag demoFlagged 7 0) 7 0).board.tiles 7 0).modifier =
      some TileModifier.Flagged :=
  ⟨rfl, by decide, by decide⟩

theorem mem_minesFinset {b : GameBoard} {p : Nat × Nat} :
    p ∈ minesFinset b ↔
      p.1 < b.width ∧ p.2 < b.height ∧
        (b.tiles p.1 p.2).state = TileState.Mine := by
  simp [minesFinset, boardPositions, Finset.mem_filter, Finset.mem_product, and_assoc]

theorem minesFinset_congr {b₁ b₂ : GameBoard} (hw : b₂.width = b₁.width)
    (hh : b₂.height = b₁.height)
    (hs : ∀ a c, ((b₂.tiles a c).state = TileState.Mine ↔
      (b₁.tiles a c).state = TileState.Mine)) :
    minesFinset b₂ = minesFinset b₁ := by
  ext p
  rw [mem_minesFinset, mem_minesFinset, hw, hh]
  simp only [hs p.1 p.2]

/-- C6 (amended): in a Playing state whose counters are consistent
(`valid_flags` counts the flagged mines, and the board really holds
`mines` mines), a flag call that places a flag and brings `valid_flags` up
to `mines` emits `FlagAllMines`, sets the state to Victory, and at that
moment every mine is flagged.  (Non-mine tiles may be flagged too — the
original "only mines are flagged" part fails, see
`flag_victory_nonmine_flag_cex`.) -/
theorem flag_all_mines_victory (g : Minesweeper) (x y : Nat)
    (hstate : g.state = GameState.Playing)
    (hswept : (g.board.tiles x y).swept = false)
    (hmod : (g.board.tiles x y).modifier = none)
    (hin : x < g.board.width ∧ y < g.board.height)
    (hvf : g.board.valid_flags = flaggedMineCount g.board)
    (hmc : mineCount g.board = g.board.mines)
    (htrig : (if (g.board.tiles x y).state = TileState.Mine then
        g.board.valid_flags + 1 else g.board.valid_flags) = g.board.mines) :
    (flag g x y).state = GameState.Victory ∧
    GameEvent.FlagAllMines ∈ (flag g x y).events ∧
    ∀ p : Nat × Nat, p.1 < g.board.width → p.2 < g.board.height →
      (g.board.tiles p.1 p.2).state = TileState.Mine →
      ((flag g x y).board.tiles p.1 p.2).modifier = some TileModifier.Flagged := by
  by_cases hm : (g.board.tiles x y).state = TileState.Mine
  · rw [if_pos hm] at htrig
    rw [flag_place_eq g x y hstate hswept hmod]
    simp only [hm, if_true]
    rw [if_pos (by simp [Minesweeper.addEvent]; exact htrig)]
    refine ⟨rfl, by simp [Minesweeper.addEvent], ?_⟩
    intro p hp1 hp2 hpm
    by_cases hpxy : p.1 = x ∧ p.2 = y
    · simp [Minesweeper.addEvent, GameBoard.setTile, hpxy]
    · have hmem : p ∈ minesFinset g.board := mem_minesFinset.mpr ⟨hp1, hp2, hpm⟩
      have hxym : (x, y) ∈ minesFinset g.board := mem_minesFinset.mpr ⟨hin.1, hin.2, hm⟩
      have hnotF : (x, y) ∉ (minesFinset g.board).filter
          (fun q => (g.board.tiles q.1 q.2).modifier = some TileModifier.Flagged) := by
        simp [Finset.mem_filter, hmod]
      have hsub : insert (x, y) ((minesFinset g.board).filter
          (fun q => (g.board.tiles q.1 q.2).modifier = some TileModifier.Flagged)) ⊆
          minesFinset g.board := by
        intro q hq
        rcases Finset.mem_insert.mp hq with h | h
        · exact h ▸ hxym
        · exact Finset.mem_of_mem_filter q h
      have hcard : (minesFinset g.board).card ≤ (insert (x, y)
          ((minesFinset g.board).filter
            (fun q => (g.board.tiles q.1 q.2).modifier = some TileModifier.Flagged))).card := by
        rw [Finset.card_insert_of_not_mem hnotF]
        have h1 : flaggedMineCount g.board + 1 = g.board.mines := by
          rw [← hvf]; exact htrig
        have h2 : (minesFinset g.board).card = g.board.mines := hmc
        unfold flaggedMineCount at h1
        omega
      have heq := Finset.eq_of_subset_of_card_le hsub hcard
      have hp : p ∈ insert (x, y) ((minesFinset g.board).filter
          (fun q => (g.board.tiles q.1 q.2).modifier = some TileModifier.Flagged)) := by
        rw [heq]; exact hmem
      rcases Finset.mem_insert.mp hp with h | h
      · exact absurd ⟨congrArg Prod.fst h, congrArg Prod.snd h⟩ hpxy
      · have := (Finset.mem_filter.mp h).2
        simp only [Minesweeper.addEvent, GameBoard.setTile]
        simp [hpxy]
        exact this
  · rw [if_neg hm] at htrig
    rw [flag_place_eq g x y hstate hswept hmod]
    simp only [hm, if_false]
    rw [if_pos (by simp [Minesweeper.addEvent]; exact htrig)]
    refine ⟨rfl, by simp [Minesweeper.addEvent], ?_⟩
    intro p hp1 hp2 hpm
    have hpxy : ¬(p.1 = x ∧ p.2 = y) := by
      rintro ⟨h1, h2⟩
      exact hm (by rw [← h1, ← h2]; exact hpm)
    have hmem : p ∈ minesFinset g.board := mem_minesFinset.mpr ⟨hp1, hp2, hpm⟩
    have hsub : (minesFinset g.board).filter
        (fun q => (g.board.tiles q.1 q.2).modifier = some TileModifier.Flagged) ⊆
        minesFinset g.board := Finset.filter_subset _ _
    have hcard : (minesFinset g.board).card ≤ ((minesFinset g.board).filter
        (fun q => (g.board.tiles q.1 q.2).modifier = some TileModifier.Flagged)).card := by
      have h1 : flaggedMineCount g.board = g.board.mines := by
        rw [← hvf]; exact htrig
      have h2 : (minesFinset g.board).card = g.board.mines := hmc
      unfold flaggedMineCount at h1
      omega
    have heq := Finset.eq_of_subset_of_card_le hsub hcard
    have hp : p ∈ (minesFinset g.board).filter
        (fun q => (g.board.tiles q.1 q.2).modifier = some TileModifier.Flagged) := by
      rw [heq]; exact hmem
    have := (Finset.mem_filter.mp hp).2
    simp only [Minesweeper.addEvent, GameBoard.setTile]
    simp [hpxy]
    exact this

/-- Witness for `flag_all_mines_victory`: flagging the last (only) mine
`(5, 0)` of the concrete game wins it. -/
theorem flag_all_mines_victory_witness :
    (flag demoFlagged 5 0).state = GameState.Victory ∧
    GameEvent.FlagAllMines ∈ (flag demoFlagged 5 0).events ∧
    ∀ p : Nat × Nat, p.1 < demoFlagged.board.width →
      p.2 < demoFlagged.board.height →
      (demoFlagged.board.tiles p.1 p.2).state = TileState.Mine →
      ((flag demoFlagged 5 0).board.tiles p.1 p.2).modifier =
        some TileModifier.Flagged :=
  flag_all_mines_victory demoFlagged 5 0 (by decide) (by decide) (by decide)
    (by decide) (by decide) (by decide) (by decide)

/-- C6 counterexample: in the reachable game `demoFlagged` the non-mine
cell `(7, 0)` is already flagged; flagging the mine `(5, 0)` makes
`valid_flags = mines` and wins, yet a flagged non-mine remains — "only
mines are flagged" is false at that moment. -/
theorem flag_victory_nonmine_flag_cex :
    Minesweeper.new demoSettings = Except.ok demoGame ∧
    demoFlagged.state = GameState.Playing ∧
    (demoFlagged.board.tiles 5 0).modifier = none ∧
    (demoFlagged.board.tiles 5 0).swept = false ∧
    demoVictory.state = GameState.Victory ∧
    demoVictory.events.any isFlagAllMines = true ∧
    (demoVictory.board.tiles 7 0).modifier = some TileModifier.Flagged ∧
    (demoVictory.board.tiles 7 0).state ≠ TileState.Mine :=
  ⟨rfl, rfl, by decide, by decide, rfl, rfl, by decide, by decide⟩

theorem new_ok {s : GameSettings} {g : Minesweeper}
    (hg : Minesweeper.new s = Except.ok g) : g = mkGame s := by
  unfold Minesweeper.new at hg
  split_ifs at hg
  exact (Except.ok.injEq _ _).mp hg |>.symm

theorem mem_SAFE_ZONE {dx dy : Int} (hx : dx.natAbs ≤ 1) (hy : dy.natAbs ≤ 1) :
    (dx, dy) ∈ SAFE_ZONE := by
  have hx' : dx = -1 ∨ dx = 0 ∨ dx = 1 := by omega
  have hy' : dy = -1 ∨ dy = 0 ∨ dy = 1 := by omega
  rcases hx' with h | h | h <;> rcases hy' with h' | h' | h' <;>
    subst h <;> subst h' <;> simp [SAFE_ZONE]

theorem mem_validSafezone {x y a b w h : Nat} (hz : InSafeZone x y a b w h) :
    (a, b) ∈ validSafezone x y w h := by
  obtain ⟨ha, hb, hdx, hdy⟩ := hz
  rw [validSafezone, List.mem_filterMap]
  refine ⟨((a : Int) - (x : Int), (b : Int) - (y : Int)),
    mem_SAFE_ZONE hdx hdy, ?_⟩
  have e1 : (a : Int) - (x : Int) + (x : Int) = (a : Int) := by ring
  have e2 : (b : Int) - (y : Int) + (y : Int) = (b : Int) := by ring
  simp only [e1, e2]
  rw [if_pos]
  · simp
  · refine ⟨by omega, by omega, by omega, by omega⟩

theorem foldl_induction {X Y : Type} (f : Y → X → Y) (l : List X) (st : Y)
    (P : Y → Prop) (h0 : P st)
    (hstep : ∀ b a, a ∈ l → P b → P (f b a)) : P (l.foldl f st) := by
  induction l generalizing st with
  | nil => exact h0
  | cons q rest ih =>
    rw [List.foldl_cons]
    exact ih (f st q) (hstep st q (List.mem_cons_self q rest) h0)
      (fun b a ha hb => hstep b a (List.mem_cons_of_mem q ha) hb)

theorem markSafe_spec (b : GameBoard) (l : List (Nat × Nat)) :
    (markSafe b l).width = b.width ∧ (markSafe b l).height = b.height ∧
    (markSafe b l).mines = b.mines ∧
    ∀ a c, ((markSafe b l).tiles a c).state = (b.tiles a c).state ∧
      ((markSafe b l).tiles a c).swept = (b.tiles a c).swept ∧
      ((markSafe b l).tiles a c).modifier = (b.tiles a c).modifier := by
  unfold markSafe
  refine foldl_induction _ l b
    (fun b' => b'.width = b.width ∧ b'.height = b.height ∧ b'.mines = b.mines ∧
      ∀ a c, (b'.tiles a c).state = (b.tiles a c).state ∧
        (b'.tiles a c).swept = (b.tiles a c).swept ∧
        (b'.tiles a c).modifier = (b.tiles a c).modifier)
    ⟨rfl, rfl, rfl, fun a c => ⟨rfl, rfl, rfl⟩⟩ ?_
  rintro b' p hp ⟨hw, hh, hm, ht⟩
  refine ⟨hw, hh, hm, ?_⟩
  intro a c
  rcases ht a c with ⟨h1, h2, h3⟩
  by_cases hac : a = p.1 ∧ c = p.2
  · simp [GameBoard.setTile, hac, h1, h2, h3]
    exact ⟨(ht p.1 p.2).1, (ht p.1 p.2).2.1, (ht p.1 p.2).2.2⟩
  · simp [GameBoard.setTile, hac]
    exact ⟨h1, h2, h3⟩

theorem markSafe_mono (b : GameBoard) (l : List (Nat × Nat)) (a c : Nat)
    (h : (b.tiles a c).safe = true) :
    ((markSafe b l).tiles a c).safe = true := by
  unfold markSafe
  refine foldl_induction _ l b (fun b' => (b'.tiles a c).safe = true) h ?_
  intro b' p hp hb'
  by_cases hac : a = p.1 ∧ c = p.2
  · simp [GameBoard.setTile, hac]
  · simp [GameBoard.setTile, hac]
    exact hb'

theorem markSafe_safe :
    ∀ (l : List (Nat × Nat)) (b : GameBoard) (p : Nat × Nat), p ∈ l →
      ((markSafe b l).tiles p.1 p.2).safe = true := by
  intro l
  induction l with
  | nil => intro b p hp; cases hp
  | cons q rest ih =>
    intro b p hp
    rw [markSafe, List.foldl_cons, ← markSafe]
    rcases List.mem_cons.mp hp with h | h
    · subst h
      exact markSafe_mono _ rest p.1 p.2 (by simp [GameBoard.setTile])
    · exact ih _ p h

theorem placeMines_safe_frozen :
    ∀ (l : List (Nat × Nat)) (b : GameBoard) (i : Nat) (a c : Nat),
      (b.tiles a c).safe = true →
      (placeMines l b i).1.tiles a c = b.tiles a c := by
  intro l
  induction l with
  | nil => intro b i a c hsafe; rfl
  | cons p rest ih =>
    intro b i a c hsafe
    rw [placeMines]
    simp only []
    split_ifs with h1 h2
    · rfl
    · exact ih b i a c hsafe
    · push_neg at h2
      have hne : ¬(a = p.1 ∧ c = p.2) := by
        rintro ⟨h3, h4⟩
        exact h2.2 (by rw [← h3, ← h4]; exact hsafe)
      have htiles : (b.setTile p.1 p.2
          { b.tiles p.1 p.2 with state := TileState.Mine }).tiles a c =
          b.tiles a c := by
        simp [GameBoard.setTile, hne]
      rw [ih _ _ a c (by rw [htiles]; exact hsafe), htiles]

theorem placeMines_dims :
    ∀ (l : List (Nat × Nat)) (b : GameBoard) (i : Nat),
      (placeMines l b i).1.width = b.width ∧
      (placeMines l b i).1.height = b.height ∧
      (placeMines l b i).1.mines = b.mines := by
  intro l
  induction l with
  | nil => intro b i; exact ⟨rfl, rfl, rfl⟩
  | cons p rest ih =>
    intro b i
    rw [placeMines]
    simp only []
    split_ifs with h1 h2
    · exact ⟨rfl, rfl, rfl⟩
    · exact ih b i
    · exact ih _ _

theorem incState_ne_mine (s : TileState) : incState s ≠ TileState.Mine := by
  cases s <;> simp [incState]

theorem incAt_dims (x y : Nat) (b : GameBoard) (off : Int × Int) :
    (incAt x y b off).width = b.width ∧ (incAt x y b off).height = b.height ∧
    (incAt x y b off).mines = b.mines := by
  unfold incAt
  simp only []
  split_ifs <;> exact ⟨rfl, rfl, rfl⟩

theorem incAt_mine_iff (x y : Nat) (b : GameBoard) (off : Int × Int) (a c : Nat) :
    ((incAt x y b off).tiles a c).state = TileState.Mine ↔
      (b.tiles a c).state = TileState.Mine := by
  unfold incAt
  simp only []
  split_ifs with h1 h2
  · exact Iff.rfl
  · by_cases hac : a = ((x : Int) + off.1).toNat ∧ c = ((y : Int) + off.2).toNat
    · rw [show (b.setTile ((x : Int) + off.1).toNat ((y : Int) + off.2).toNat
        { b.tiles ((x : Int) + off.1).toNat ((y : Int) + off.2).toNat with
          state := incState ((b.tiles ((x : Int) + off.1).toNat
            ((y : Int) + off.2).toNat).state) }).tiles a c =
        { b.tiles ((x : Int) + off.1).toNat ((y : Int) + off.2).toNat with
          state := incState ((b.tiles ((x : Int) + off.1).toNat
            ((y : Int) + off.2).toNat).state) } from by simp [GameBoard.setTile, hac]]
      rw [hac.1, hac.2]
      simp [incState_ne_mine]
      intro hcon
      exact h2 hcon
    · simp [GameBoard.setTile, hac]
  · exact Iff.rfl

theorem incAt_mine_tile (x y : Nat) (b : GameBoard) (off : Int × Int) (a c : Nat)
    (h : (b.tiles a c).state = TileState.Mine) :
    (incAt x y b off).tiles a c = b.tiles a c := by
  unfold incAt
  simp only []
  split_ifs with h1 h2
  · rfl
  · have hne : ¬(a = ((x : Int) + off.1).toNat ∧ c = ((y : Int) + off.2).toNat) := by
      rintro ⟨h3, h4⟩
      rw [h3, h4] at h
      exact h2 h
    simp [GameBoard.setTile, hne]
  · rfl

theorem scanFold_mine_iff (x y : Nat) (b : GameBoard) (offs : List (Int × Int))
    (a c : Nat) :
    (((offs.foldl (incAt x y) b).tiles a c).state = TileState.Mine ↔
      (b.tiles a c).state = TileState.Mine) ∧
    (offs.foldl (incAt x y) b).width = b.width ∧
    (offs.foldl (incAt x y) b).height = b.height ∧
    (offs.foldl (incAt x y) b).mines = b.mines := by
  refine foldl_induction _ offs b
    (fun b' => (((b'.tiles a c).state = TileState.Mine ↔
        (b.tiles a c).state = TileState.Mine) ∧
      b'.width = b.width ∧ b'.height = b.height ∧ b'.mines = b.mines))
    ⟨Iff.rfl, rfl, rfl, rfl⟩ ?_
  rintro b' off hoff ⟨hiff, hw, hh, hm⟩
  obtain ⟨hw', hh', hm'⟩ := incAt_dims x y b' off
  exact ⟨(incAt_mine_iff x y b' off a c).trans hiff,
    hw'.trans hw, hh'.trans hh, hm'.trans hm⟩

theorem countPass_mine_iff (b : GameBoard) (a c : Nat) :
    (((countPass b).tiles a c).state = TileState.Mine ↔
      (b.tiles a c).state = TileState.Mine) ∧
    (countPass b).width = b.width ∧ (countPass b).height = b.height ∧
    (countPass b).mines = b.mines := by
  unfold countPass
  refine foldl_induction _ (allCoords b.width b.height) b
    (fun b' => (((b'.tiles a c).state = TileState.Mine ↔
        (b.tiles a c).state = TileState.Mine) ∧
      b'.width = b.width ∧ b'.height = b.height ∧ b'.mines = b.mines))
    ⟨Iff.rfl, rfl, rfl, rfl⟩ ?_
  rintro b' p hp ⟨hiff, hw, hh, hm⟩
  unfold procCell
  split_ifs with hmine
  · obtain ⟨hiff', hw', hh', hm'⟩ := scanFold_mine_iff p.1 p.2 b' SCAN a c
    exact ⟨hiff'.trans hiff, hw'.trans hw, hh'.trans hh, hm'.trans hm⟩
  · exact ⟨hiff, hw, hh, hm⟩

theorem scanFold_mine_tile (x y : Nat) (b : GameBoard) (offs : List (Int × Int))
    (a c : Nat) (h : (b.tiles a c).state = TileState.Mine) :
    (offs.foldl (incAt x y) b).tiles a c = b.tiles a c := by
  refine foldl_induction _ offs b (fun b' => b'.tiles a c = b.tiles a c) rfl ?_
  intro b' off hoff hb'
  rw [incAt_mine_tile x y b' off a c (by rw [hb']; exact h), hb']

theorem countPass_mine_tile (b : GameBoard) (a c : Nat)
    (h : (b.tiles a c).state = TileState.Mine) :
    (countPass b).tiles a c = b.tiles a c := by
  unfold countPass
  refine foldl_induction _ (allCoords b.width b.height) b
    (fun b' => b'.tiles a c = b.tiles a c) rfl ?_
  intro b' p hp hb'
  unfold procCell
  split_ifs with hmine
  · rw [scanFold_mine_tile p.1 p.2 b' SCAN a c (by rw [hb']; exact h), hb']
  · exact hb'

/-- C2: after generation with first sweep at `(x, y)`, no cell of the
clipped 3×3 neighbourhood of `(x, y)` holds a mine: the zone is marked
safe, the placement loop refuses safe cells, and the count pass never
creates a mine. -/
theorem first_move_safety (s : GameSettings) (g : Minesweeper)
    (picks : List (Nat × Nat)) (x y a b : Nat)
    (hg : Minesweeper.new s = Except.ok g)
    (hzone : InSafeZone x y a b s.width s.height) :
    ((generate picks g x y).board.tiles a b).state ≠ TileState.Mine := by
  obtain rfl := new_ok hg
  intro hMine
  have hboard : (generate picks (mkGame s) x y).board =
      countPass (placedPair picks (mkGame s).board x y).1 := rfl
  rw [hboard, (countPass_mine_iff _ a b).1] at hMine
  have hsafe : ((markSafe (mkGame s).board
      (validSafezone x y (mkGame s).board.width (mkGame s).board.height)).tiles
        a b).safe = true :=
    markSafe_safe _ _ (a, b) (mem_validSafezone hzone)
  rw [show (placedPair picks (mkGame s).board x y).1 =
      (placeMines picks (markSafe (mkGame s).board
        (validSafezone x y (mkGame s).board.width (mkGame s).board.height)) 0).1
      from rfl] at hMine
  rw [placeMines_safe_frozen picks _ 0 a b hsafe] at hMine
  rw [((markSafe_spec _ _).2.2.2 a b).1] at hMine
  exact absurd hMine (by simp [mkGame, blankTile])

/-- Witness for `first_move_safety` on the concrete 10×1 game: the safe
cell `(1, 0)` next to the first sweep holds no mine. -/
theorem first_move_safety_witness :
    ((generate [(5, 0)] demoGame 0 0).board.tiles 1 0).state ≠ TileState.Mine :=
  first_move_safety demoSettings demoGame [(5, 0)] 0 0 1 0 rfl (by decide)

theorem mineCount_mkGame (s : GameSettings) : mineCount (mkGame s).board = 0 := by
  unfold mineCount
  rw [Finset.card_eq_zero]
  unfold minesFinset
  rw [Finset.filter_eq_empty_iff]
  intro p hp
  simp [mkGame, blankTile]

theorem placeMines_mineCount :
    ∀ (l : List (Nat × Nat)) (b : GameBoard) (i : Nat),
      (∀ p ∈ l, p.1 < b.width ∧ p.2 < b.height) →
      mineCount (placeMines l b i).1 + i = mineCount b + (placeMines l b i).2 := by
  intro l
  induction l with
  | nil => intro b i h; rfl
  | cons p rest ih =>
    intro b i hpk
    rw [placeMines]
    simp only []
    split_ifs with h1 h2
    · rfl
    · exact ih b i (fun q hq => hpk q (List.mem_cons_of_mem p hq))
    · push_neg at h2
      have hin : p.1 < b.width ∧ p.2 < b.height := hpk p (List.mem_cons_self p rest)
      have hset : minesFinset (b.setTile p.1 p.2
          { b.tiles p.1 p.2 with state := TileState.Mine }) =
          insert p (minesFinset b) := by
        ext q
        rw [Finset.mem_insert, mem_minesFinset, mem_minesFinset]
        simp only [setTile_width, setTile_height]
        by_cases hq : q.1 = p.1 ∧ q.2 = p.2
        · have hqp : q = p := by
            cases q; cases p
            simp only [Prod.mk.injEq]
            exact hq
          subst hqp
          simp [GameBoard.setTile, hq, hin]
        · have ht : (b.setTile p.1 p.2
              { b.tiles p.1 p.2 with state := TileState.Mine }).tiles q.1 q.2 =
              b.tiles q.1 q.2 := by
            simp [GameBoard.setTile, hq]
          rw [ht]
          have hqp : q ≠ p := fun h => hq (by rw [h]; exact ⟨rfl, rfl⟩)
          simp [hqp]
      have hcard : mineCount (b.setTile p.1 p.2
          { b.tiles p.1 p.2 with state := TileState.Mine }) = mineCount b + 1 := by
        unfold mineCount
        rw [hset, Finset.card_insert_of_not_mem]
        intro hmem
        exact h2.1 (mem_minesFinset.mp hmem).2.2
      have hrec := ih (b.setTile p.1 p.2
          { b.tiles p.1 p.2 with state := TileState.Mine }) (i + 1)
        (fun q hq => by
          simpa using hpk q (List.mem_cons_of_mem p hq))
      show mineCount (placeMines rest (b.setTile p.1 p.2
          { b.tiles p.1 p.2 with state := TileState.Mine }) (i + 1)).1 + i =
        mineCount b + (placeMines rest (b.setTile p.1 p.2
          { b.tiles p.1 p.2 with state := TileState.Mine }) (i + 1)).2
      omega

/-- C3: when the placement loop completes (its counter reaches `mines`),
the generated board holds exactly `mines` mine tiles, and the
neighbour-count pass leaves every mine tile untouched. -/
theorem mine_count_exact (s : GameSettings) (g : Minesweeper)
    (picks : List (Nat × Nat)) (x y : Nat)
    (hg : Minesweeper.new s = Except.ok g)
    (hpicks : ∀ p ∈ picks, p.1 < s.width ∧ p.2 < s.height)
    (hdone : (placedPair picks g.board x y).2 = s.mines) :
    mineCount (generate picks g x y).board = s.mines ∧
    ∀ a c, (((placedPair picks g.board x y).1).tiles a c).state = TileState.Mine →
      (countPass ((placedPair picks g.board x y).1)).tiles a c =
        ((placedPair picks g.board x y).1).tiles a c := by
  obtain rfl := new_ok hg
  constructor
  · have hboard : (generate picks (mkGame s) x y).board =
        countPass ((placedPair picks (mkGame s).board x y).1) := rfl
    have hcpass : mineCount (countPass ((placedPair picks (mkGame s).board x y).1)) =
        mineCount ((placedPair picks (mkGame s).board x y).1) := by
      unfold mineCount
      congr 1
      exact minesFinset_congr (countPass_mine_iff _ 0 0).2.1
        (countPass_mine_iff _ 0 0).2.2.1
        (fun a c => (countPass_mine_iff _ a c).1)
    have hmark : mineCount (markSafe (mkGame s).board
        (validSafezone x y (mkGame s).board.width (mkGame s).board.height)) = 0 := by
      rw [← mineCount_mkGame s]
      unfold mineCount
      congr 1
      exact minesFinset_congr (markSafe_spec _ _).1 (markSafe_spec _ _).2.1
        (fun a c => by rw [((markSafe_spec _ _).2.2.2 a c).1])
    have hplace := placeMines_mineCount picks
      (markSafe (mkGame s).board
        (validSafezone x y (mkGame s).board.width (mkGame s).board.height)) 0
      (fun q hq => by
        have := hpicks q hq
        have hw := (markSafe_spec (mkGame s).board
          (validSafezone x y (mkGame s).board.width (mkGame s).board.height)).1
        have hh := (markSafe_spec (mkGame s).board
          (validSafezone x y (mkGame s).board.width (mkGame s).board.height)).2.1
        rw [hw, hh]
        exact this)
    rw [hboard, hcpass]
    have hpp : (placedPair picks (mkGame s).board x y).1 =
        (placeMines picks (markSafe (mkGame s).board
          (validSafezone x y (mkGame s).board.width (mkGame s).board.height)) 0).1 :=
      rfl
    have hpp2 : (placedPair picks (mkGame s).board x y).2 =
        (placeMines picks (markSafe (mkGame s).board
          (validSafezone x y (mkGame s).board.width (mkGame s).board.height)) 0).2 :=
      rfl
    rw [hpp]
    rw [hpp2] at hdone
    omega
  · intro a c h
    exact countPass_mine_tile _ a c h

/-- Witness for `mine_count_exact` on the concrete 10×1 game. -/
theorem mine_count_exact_witness :
    mineCount (generate [(5, 0)] demoGame 0 0).board = demoSettings.mines ∧
    ∀ a c, (((placedPair [(5, 0)] demoGame.board 0 0).1).tiles a c).state =
        TileState.Mine →
      (countPass ((placedPair [(5, 0)] demoGame.board 0 0).1)).tiles a c =
        ((placedPair [(5, 0)] demoGame.board 0 0).1).tiles a c :=
  mine_count_exact demoSettings demoGame [(5, 0)] 0 0 rfl (by decide) (by decide)

theorem addN_ne_mine (s : TileState) (hs : s ≠ TileState.Mine) :
    ∀ n, addN s n ≠ TileState.Mine
  | 0 => hs
  | n + 1 => incState_ne_mine (addN s n)

theorem incState_ofCount (n : Nat) : incState (ofCount n) = ofCount (n + 1) := by
  rcases n with _ | _ | _ | _ | _ | _ | _ | _ | _ | n <;> rfl

theorem addN_zero_ofCount : ∀ n, addN TileState.Zero n = ofCount n
  | 0 => rfl
  | n + 1 => by rw [addN, addN_zero_ofCount n, incState_ofCount]

theorem targetOf_eq_some {p : Nat × Nat} {off : Int × Int} {w h : Nat}
    {q : Nat × Nat} :
    targetOf p off w h = some q ↔
      (q.1 : Int) = (p.1 : Int) + off.1 ∧ (q.2 : Int) = (p.2 : Int) + off.2 ∧
        q.1 < w ∧ q.2 < h := by
  unfold targetOf
  simp only []
  split_ifs with hb
  · constructor
    · intro h'
      exact h'.elim
    · rintro ⟨h1, h2, h3, h4⟩
      exfalso
      rcases hb with hb | hb | hb | hb <;> omega
  · push_neg at hb
    rw [Option.some.injEq, Prod.ext_iff]
    obtain ⟨b1, b2, b3, b4⟩ := hb
    constructor
    · rintro ⟨h1, h2⟩
      refine ⟨?_, ?_, ?_, ?_⟩ <;> simp only [] at h1 h2 <;> omega
    · rintro ⟨h1, h2, h3, h4⟩
      constructor <;> simp only [] <;> omega

theorem targetOf_inj {p : Nat × Nat} {w h : Nat} {off1 off2 : Int × Int}
    {q : Nat × Nat} (h1 : targetOf p off1 w h = some q)
    (h2 : targetOf p off2 w h = some q) : off1 = off2 := by
  rw [targetOf_eq_some] at h1 h2
  cases off1
  cases off2
  rw [Prod.ext_iff]
  constructor <;> simp only [] <;> omega

theorem SCAN_char {dx dy : Int} :
    (dx, dy) ∈ SCAN ↔
      dx.natAbs ≤ 1 ∧ dy.natAbs ≤ 1 ∧ ¬(dx = 0 ∧ dy = 0) := by
  constructor
  · intro hm
    fin_cases hm <;> refine ⟨by omega, by omega, by rintro ⟨h1, h2⟩; omega⟩
  · rintro ⟨hx, hy, hne⟩
    have hx' : dx = -1 ∨ dx = 0 ∨ dx = 1 := by omega
    have hy' : dy = -1 ∨ dy = 0 ∨ dy = 1 := by omega
    rcases hx' with h | h | h <;> rcases hy' with h' | h' | h' <;>
      subst h <;> subst h' <;> simp [SCAN] at hne ⊢

theorem mem_neighborsOf {p q : Nat × Nat} {w h : Nat} :
    q ∈ neighborsOf p w h ↔
      q.1 < w ∧ q.2 < h ∧
        ((q.1 : Int) - (p.1 : Int), (q.2 : Int) - (p.2 : Int)) ∈ SCAN := by
  unfold neighborsOf
  rw [List.mem_filterMap]
  constructor
  · rintro ⟨off, hoff, htg⟩
    rw [targetOf_eq_some] at htg
    obtain ⟨h1, h2, h3, h4⟩ := htg
    refine ⟨h3, h4, ?_⟩
    have e1 : (q.1 : Int) - (p.1 : Int) = off.1 := by omega
    have e2 : (q.2 : Int) - (p.2 : Int) = off.2 := by omega
    rw [e1, e2]
    exact hoff
  · rintro ⟨h1, h2, hmem⟩
    exact ⟨_, hmem, targetOf_eq_some.mpr ⟨by omega, by omega, h1, h2⟩⟩

theorem neighborsOf_symm {p q : Nat × Nat} {w h : Nat}
    (hp1 : p.1 < w) (hp2 : p.2 < h) :
    q ∈ neighborsOf p w h ↔ (q.1 < w ∧ q.2 < h ∧ p ∈ neighborsOf q w h) := by
  rw [mem_neighborsOf, mem_neighborsOf]
  constructor
  · rintro ⟨h1, h2, h3⟩
    refine ⟨h1, h2, hp1, hp2, ?_⟩
    rw [SCAN_char] at h3 ⊢
    omega
  · rintro ⟨h1, h2, _, _, h3⟩
    refine ⟨h1, h2, ?_⟩
    rw [SCAN_char] at h3 ⊢
    omega

theorem SCAN_nodup : SCAN.Nodup := by decide

theorem neighborsOf_nodup (p : Nat × Nat) (w h : Nat) :
    (neighborsOf p w h).Nodup :=
  List.Nodup.filterMap
    (fun _ _ _ ha ha' => targetOf_inj ha ha') SCAN_nodup

theorem mem_allCoords {m : Nat × Nat} {w h : Nat} :
    m ∈ allCoords w h ↔ m.1 < w ∧ m.2 < h := by
  unfold allCoords
  rw [List.mem_flatMap]
  constructor
  · rintro ⟨x, hx, hm⟩
    rw [List.mem_map] at hm
    obtain ⟨y, hy, rfl⟩ := hm
    exact ⟨List.mem_range.mp hx, List.mem_range.mp hy⟩
  · rintro ⟨h1, h2⟩
    exact ⟨m.1, List.mem_range.mpr h1,
      List.mem_map.mpr ⟨m.2, List.mem_range.mpr h2, rfl⟩⟩

theorem allCoords_nodup (w h : Nat) : (allCoords w h).Nodup := by
  unfold allCoords
  rw [List.nodup_flatMap]
  constructor
  · intro x hx
    exact (List.nodup_range h).map
      (fun a b hab => by injection hab)
  · refine (List.nodup_range w).imp ?_
    intro a b hab q hqa hqb
    rw [List.mem_map] at hqa hqb
    obtain ⟨y1, _, rfl⟩ := hqa
    obtain ⟨y2, _, h2⟩ := hqb
    exact hab (by injection h2.symm)

theorem countP_le_one_of_unique {X : Type} (l : List X) (f : X → Bool)
    (hnd : l.Nodup) (huniq : ∀ a ∈ l, ∀ b ∈ l, f a = true → f b = true → a = b) :
    l.countP f ≤ 1 := by
  induction l with
  | nil => simp
  | cons a rest ih =>
    rw [List.countP_cons]
    by_cases hfa : f a = true
    · have hz : rest.countP f = 0 := by
        rw [List.countP_eq_zero]
        intro b hb hfb
        have hab : a = b := huniq a (List.mem_cons_self a rest) b
          (List.mem_cons_of_mem a hb) hfa hfb
        exact (List.nodup_cons.mp hnd).1 (hab ▸ hb)
      rw [hz]
      simp [hfa]
    · have hrest := ih (List.nodup_cons.mp hnd).2
        (fun a' ha' b hb => huniq a' (List.mem_cons_of_mem a ha') b
          (List.mem_cons_of_mem a hb))
      simp [hfa]
      omega

theorem countP_restrict {X : Type} (big small : List X)
    (f pre : X → Bool) (hbig : big.Nodup) (hsmall : small.Nodup)
    (hsub : ∀ x ∈ small, x ∈ big)
    (hpre : ∀ x, pre x = true ↔ (x ∈ small ∧ f x = true)) :
    big.countP pre = small.countP f := by
  rw [List.countP_eq_length_filter, List.countP_eq_length_filter]
  refine List.Perm.length_eq ?_
  rw [List.perm_ext_iff_of_nodup (hbig.filter _) (hsmall.filter _)]
  intro q
  rw [List.mem_filter, List.mem_filter]
  constructor
  · rintro ⟨hq, hpred⟩
    exact (hpre q).mp hpred
  · rintro ⟨hq, hf⟩
    exact ⟨hsub q hq, (hpre q).mpr ⟨hq, hf⟩⟩

theorem incAt_eq (x y : Nat) (b : GameBoard) (off : Int × Int) :
    incAt x y b off =
      match targetOf (x, y) off b.width b.height with
      | none => b
      | some t =>
        if (b.tiles t.1 t.2).state ≠ TileState.Mine then
          b.setTile t.1 t.2
            { b.tiles t.1 t.2 with state := incState ((b.tiles t.1 t.2).state) }
        else b := by
  unfold incAt targetOf
  simp only []
  by_cases hb : (x : Int) + off.1 ≥ (b.width : Int) ∨ (x : Int) + off.1 < 0 ∨
      (y : Int) + off.2 ≥ (b.height : Int) ∨ (y : Int) + off.2 < 0
  · rw [if_pos hb, if_pos hb]
  · rw [if_neg hb, if_neg hb]

theorem incFold_spec (m : Nat × Nat) (w h : Nat) :
    ∀ (offs : List (Int × Int)) (b : GameBoard), b.width = w → b.height = h →
      (∀ q : Nat × Nat,
        offs.countP (fun off => decide (targetOf m off w h = some q)) ≤ 1) →
      ((offs.foldl (incAt m.1 m.2) b).width = w ∧
       (offs.foldl (incAt m.1 m.2) b).height = h ∧
       (offs.foldl (incAt m.1 m.2) b).mines = b.mines ∧
       ∀ q : Nat × Nat,
         (offs.foldl (incAt m.1 m.2) b).tiles q.1 q.2 =
           if q ∈ offs.filterMap (fun off => targetOf m off w h) ∧
              (b.tiles q.1 q.2).state ≠ TileState.Mine
           then { b.tiles q.1 q.2 with
                    state := incState ((b.tiles q.1 q.2).state) }
           else b.tiles q.1 q.2) := by
  intro offs
  induction offs with
  | nil =>
    intro b hbw hbh hcnt
    refine ⟨hbw, hbh, rfl, fun q => ?_⟩
    simp
  | cons off rest ih =>
    intro b hbw hbh hcnt
    rw [List.foldl_cons, incAt_eq, hbw, hbh]
    rcases htg : targetOf (m.1, m.2) off w h with _ | t
    · have htg' : targetOf m off w h = none := htg
      have hcnt' : ∀ q : Nat × Nat,
          rest.countP (fun o => decide (targetOf m o w h = some q)) ≤ 1 := by
        intro q
        have := hcnt q
        rw [List.countP_cons] at this
        omega
      obtain ⟨hw', hh', hm', ht'⟩ := ih b hbw hbh hcnt'
      refine ⟨hw', hh', hm', fun q => ?_⟩
      rw [ht' q, List.filterMap_cons, htg']
    · simp only []
      have htg' : targetOf m off w h = some t := htg
      have hcnt' : ∀ q : Nat × Nat,
          rest.countP (fun o => decide (targetOf m o w h = some q)) ≤ 1 := by
        intro q
        have := hcnt q
        rw [List.countP_cons] at this
        omega
      have htmem : t ∉ rest.filterMap (fun o => targetOf m o w h) := by
        intro hmem
        rw [List.mem_filterMap] at hmem
        obtain ⟨o, ho, hto⟩ := hmem
        have := hcnt t
        rw [List.countP_cons, if_pos (by rw [decide_eq_true_eq]; exact htg')] at this
        have hz : rest.countP (fun o => decide (targetOf m o w h = some t)) = 0 := by
          omega
        rw [List.countP_eq_zero] at hz
        exact absurd (decide_eq_true_eq.mpr hto) (by simpa using hz o ho)
      by_cases hguard : (b.tiles t.1 t.2).state ≠ TileState.Mine
      · rw [if_pos hguard]
        obtain ⟨hw', hh', hm', ht'⟩ := ih
          (b.setTile t.1 t.2
            { b.tiles t.1 t.2 with state := incState ((b.tiles t.1 t.2).state) })
          (by simp [hbw]) (by simp [hbh]) hcnt'
        refine ⟨hw', hh', by rw [hm']; simp, fun q => ?_⟩
        rw [ht' q, List.filterMap_cons, htg']
        simp only []
        by_cases hqt : q = t
        · subst hqt
          have hcondL : ¬(q ∈ rest.filterMap (fun o => targetOf m o w h) ∧
              ((b.setTile q.1 q.2 { b.tiles q.1 q.2 with
                state := incState ((b.tiles q.1 q.2).state) }).tiles q.1
                  q.2).state ≠ TileState.Mine) :=
            fun hx => htmem hx.1
          have hcondR : q ∈ q :: rest.filterMap (fun o => targetOf m o w h) ∧
              (b.tiles q.1 q.2).state ≠ TileState.Mine :=
            ⟨List.mem_cons_self q _, hguard⟩
          conv_lhs => rw [if_neg hcondL]
          conv_rhs => rw [if_pos hcondR]
          simp [GameBoard.setTile]
        · have hne : ¬(q.1 = t.1 ∧ q.2 = t.2) := by
            rintro ⟨h1, h2⟩
            exact hqt (by cases q; cases t; simp only [Prod.mk.injEq]; exact ⟨h1, h2⟩)
          have hsame : (b.setTile t.1 t.2
              { b.tiles t.1 t.2 with
                state := incState ((b.tiles t.1 t.2).state) }).tiles q.1 q.2 =
              b.tiles q.1 q.2 := by
            simp [GameBoard.setTile, hne]
          rw [hsame]
          have hmemiff : q ∈ t :: rest.filterMap (fun o => targetOf m o w h) ↔
              q ∈ rest.filterMap (fun o => targetOf m o w h) := by
            rw [List.mem_cons]
            exact ⟨fun hx => hx.resolve_left hqt, Or.inr⟩
          simp only [hmemiff]
      · rw [if_neg hguard]
        obtain ⟨hw', hh', hm', ht'⟩ := ih b hbw hbh hcnt'
        refine ⟨hw', hh', hm', fun q => ?_⟩
        rw [ht' q, List.filterMap_cons, htg']
        simp only []
        by_cases hqt : q = t
        · subst hqt
          have hcondL : ¬(q ∈ rest.filterMap (fun o => targetOf m o w h) ∧
              (b.tiles q.1 q.2).state ≠ TileState.Mine) :=
            fun hx => hx.2 (not_not.mp hguard)
          have hcondR : ¬(q ∈ q :: rest.filterMap (fun o => targetOf m o w h) ∧
              (b.tiles q.1 q.2).state ≠ TileState.Mine) :=
            fun hx => hx.2 (not_not.mp hguard)
          conv_lhs => rw [if_neg hcondL]
          conv_rhs => rw [if_neg hcondR]
        · have hmemiff : q ∈ t :: rest.filterMap (fun o => targetOf m o w h) ↔
              q ∈ rest.filterMap (fun o => targetOf m o w h) := by
            rw [List.mem_cons]
            exact ⟨fun hx => hx.resolve_left hqt, Or.inr⟩
          simp only [hmemiff]

theorem scan_countP_le_one (m q : Nat × Nat) (w h : Nat) :
    SCAN.countP (fun off => decide (targetOf m off w h = some q)) ≤ 1 :=
  countP_le_one_of_unique _ _ SCAN_nodup
    (fun _ _ _ _ hfa hfb =>
      targetOf_inj (of_decide_eq_true hfa) (of_decide_eq_true hfb))

theorem procCell_spec (w h : Nat) (b : GameBoard) (hbw : b.width = w)
    (hbh : b.height = h) (m : Nat × Nat) :
    (procCell b m).width = w ∧ (procCell b m).height = h ∧
    (procCell b m).mines = b.mines ∧
    ∀ q : Nat × Nat,
      (procCell b m).tiles q.1 q.2 =
        if (b.tiles m.1 m.2).state = TileState.Mine ∧ q ∈ neighborsOf m w h ∧
            (b.tiles q.1 q.2).state ≠ TileState.Mine
        then { b.tiles q.1 q.2 with
                 state := incState ((b.tiles q.1 q.2).state) }
        else b.tiles q.1 q.2 := by
  unfold procCell
  split_ifs with hm
  · obtain ⟨hw', hh', hm', ht'⟩ := incFold_spec m w h SCAN b hbw hbh
      (fun q => scan_countP_le_one m q w h)
    refine ⟨hw', hh', hm', fun q => ?_⟩
    rw [ht' q]
    have : q ∈ SCAN.filterMap (fun off => targetOf m off w h) ↔
        q ∈ neighborsOf m w h := Iff.rfl
    by_cases hq : q ∈ neighborsOf m w h ∧ (b.tiles q.1 q.2).state ≠ TileState.Mine
    · conv_lhs => rw [if_pos ⟨this.mpr hq.1, hq.2⟩]
      conv_rhs => rw [if_pos ⟨hm, hq.1, hq.2⟩]
    · conv_lhs => rw [if_neg (fun hx => hq ⟨this.mp hx.1, hx.2⟩)]
      conv_rhs => rw [if_neg (fun hx => hq ⟨hx.2.1, hx.2.2⟩)]
  · refine ⟨hbw, hbh, rfl, fun q => ?_⟩
    rw [if_neg (fun hx => hm hx.1)]

theorem countFold_spec (bref : GameBoard) (w h : Nat) :
    ∀ (l : List (Nat × Nat)) (b : GameBoard) (cnt : Nat × Nat → Nat),
      b.width = w → b.height = h →
      (∀ q : Nat × Nat, (bref.tiles q.1 q.2).state = TileState.Mine →
        b.tiles q.1 q.2 = bref.tiles q.1 q.2) →
      (∀ q : Nat × Nat, (bref.tiles q.1 q.2).state ≠ TileState.Mine →
        b.tiles q.1 q.2 = { bref.tiles q.1 q.2 with
          state := addN ((bref.tiles q.1 q.2).state) (cnt q) }) →
      ((l.foldl procCell b).width = w ∧ (l.foldl procCell b).height = h ∧
       (∀ q : Nat × Nat, (bref.tiles q.1 q.2).state = TileState.Mine →
         (l.foldl procCell b).tiles q.1 q.2 = bref.tiles q.1 q.2) ∧
       (∀ q : Nat × Nat, (bref.tiles q.1 q.2).state ≠ TileState.Mine →
         (l.foldl procCell b).tiles q.1 q.2 = { bref.tiles q.1 q.2 with
           state := addN ((bref.tiles q.1 q.2).state)
             (cnt q + l.countP (fun m =>
               decide ((bref.tiles m.1 m.2).state = TileState.Mine ∧
                 q ∈ neighborsOf m w h))) })) := by
  intro l
  induction l with
  | nil =>
    intro b cnt hbw hbh hm hn
    refine ⟨hbw, hbh, hm, fun q hq => ?_⟩
    rw [List.countP_nil, Nat.add_zero]
    exact hn q hq
  | cons m rest ih =>
    intro b cnt hbw hbh hm hn
    rw [List.foldl_cons]
    have hmiff : ((b.tiles m.1 m.2).state = TileState.Mine ↔
        (bref.tiles m.1 m.2).state = TileState.Mine) := by
      constructor
      · intro hx
        by_contra href
        rw [hn m href] at hx
        exact addN_ne_mine _ href _ hx
      · intro href
        rw [hm m href]
        exact href
    obtain ⟨pw, ph, pm, pt⟩ := procCell_spec w h b hbw hbh m
    by_cases hmine : (bref.tiles m.1 m.2).state = TileState.Mine
    · have hm2 : ∀ q : Nat × Nat, (bref.tiles q.1 q.2).state = TileState.Mine →
          (procCell b m).tiles q.1 q.2 = bref.tiles q.1 q.2 := by
        intro q hq
        rw [pt q, if_neg, hm q hq]
        rintro ⟨_, _, hx⟩
        exact hx (by rw [hm q hq]; exact hq)
      have hn2 : ∀ q : Nat × Nat, (bref.tiles q.1 q.2).state ≠ TileState.Mine →
          (procCell b m).tiles q.1 q.2 = { bref.tiles q.1 q.2 with
            state := addN ((bref.tiles q.1 q.2).state)
              (cnt q + (if q ∈ neighborsOf m w h then 1 else 0)) } := by
        intro q hq
        rw [pt q]
        by_cases hnb : q ∈ neighborsOf m w h
        · rw [if_pos ⟨hmiff.mpr hmine, hnb,
            by rw [hn q hq]; exact addN_ne_mine _ hq _⟩]
          rw [hn q hq, if_pos hnb]
          rfl
        · rw [if_neg (by rintro ⟨_, hx, _⟩; exact hnb hx)]
          rw [hn q hq, if_neg hnb, Nat.add_zero]
      obtain ⟨qw, qh, qm, qt⟩ := ih (procCell b m)
        (fun q => cnt q + (if q ∈ neighborsOf m w h then 1 else 0)) pw ph hm2 hn2
      refine ⟨qw, qh, qm, fun q hq => ?_⟩
      rw [qt q hq]
      have hcounts : cnt q + (if q ∈ neighborsOf m w h then 1 else 0) +
          rest.countP (fun m' =>
            decide ((bref.tiles m'.1 m'.2).state = TileState.Mine ∧
              q ∈ neighborsOf m' w h)) =
          cnt q + (m :: rest).countP (fun m' =>
            decide ((bref.tiles m'.1 m'.2).state = TileState.Mine ∧
              q ∈ neighborsOf m' w h)) := by
        rw [List.countP_cons]
        simp only [decide_eq_true_eq]
        by_cases hnb : q ∈ neighborsOf m w h
        · rw [if_pos hnb, if_pos ⟨hmine, hnb⟩]
          omega
        · rw [if_neg hnb, if_neg (fun hx => hnb hx.2)]
          omega
      rw [hcounts]
    · have hpid : procCell b m = b := by
        unfold procCell
        rw [if_neg (fun hx => hmine (hmiff.mp hx))]
      rw [hpid]
      obtain ⟨qw, qh, qm, qt⟩ := ih b cnt hbw hbh hm hn
      refine ⟨qw, qh, qm, fun q hq => ?_⟩
      rw [qt q hq]
      have hcounts : cnt q + rest.countP (fun m' =>
            decide ((bref.tiles m'.1 m'.2).state = TileState.Mine ∧
              q ∈ neighborsOf m' w h)) =
          cnt q + (m :: rest).countP (fun m' =>
            decide ((bref.tiles m'.1 m'.2).state = TileState.Mine ∧
              q ∈ neighborsOf m' w h)) := by
        rw [List.countP_cons]
        simp only [decide_eq_true_eq]
        rw [if_neg (fun hx => hmine hx.1), Nat.add_zero]
      rw [hcounts]

theorem placeMines_tile_cases :
    ∀ (l : List (Nat × Nat)) (b : GameBoard) (i : Nat) (a c : Nat),
      (placeMines l b i).1.tiles a c = b.tiles a c ∨
      ((placeMines l b i).1.tiles a c).state = TileState.Mine := by
  intro l
  induction l with
  | nil => intro b i a c; exact Or.inl rfl
  | cons p rest ih =>
    intro b i a c
    rw [placeMines]
    simp only []
    split_ifs with h1 h2
    · exact Or.inl rfl
    · exact ih b i a c
    · rcases ih (b.setTile p.1 p.2
          { b.tiles p.1 p.2 with state := TileState.Mine }) (i + 1) a c with
        hsame | hmine
      · by_cases hac : a = p.1 ∧ c = p.2
        · refine Or.inr ?_
          rw [hsame]
          simp [GameBoard.setTile, hac]
        · refine Or.inl ?_
          rw [hsame]
          simp [GameBoard.setTile, hac]
      · exact Or.inr hmine

/-- C4: every non-mine tile of the generated board shows exactly the
number of its in-bounds 8-neighbours that hold a mine, a count of zero
being the `Zero`/Empty state, and that count never exceeds 8. -/
theorem neighbor_count_correct (s : GameSettings) (g : Minesweeper)
    (picks : List (Nat × Nat)) (x y a c : Nat)
    (hg : Minesweeper.new s = Except.ok g)
    (ha : a < s.width) (hc : c < s.height)
    (hnm : ((generate picks g x y).board.tiles a c).state ≠ TileState.Mine) :
    ((generate picks g x y).board.tiles a c).state =
      ofCount (mineNeighborCount (generate picks g x y).board (a, c)) ∧
    mineNeighborCount (generate picks g x y).board (a, c) ≤ 8 := by
  obtain rfl := new_ok hg
  set B0 := (placedPair picks (mkGame s).board x y).1 with hB0
  have hboard : (generate picks (mkGame s) x y).board = countPass B0 := rfl
  have hmdims := markSafe_spec (mkGame s).board
    (validSafezone x y (mkGame s).board.width (mkGame s).board.height)
  have hpdims := placeMines_dims picks (markSafe (mkGame s).board
    (validSafezone x y (mkGame s).board.width (mkGame s).board.height)) 0
  have hw : B0.width = s.width := hpdims.1.trans hmdims.1
  have hh : B0.height = s.height := hpdims.2.1.trans hmdims.2.1
  have hnm0 : (B0.tiles a c).state ≠ TileState.Mine := by
    intro hx
    exact hnm (by rw [hboard]; exact (countPass_mine_iff B0 a c).1.mpr hx)
  have hzero : (B0.tiles a c).state = TileState.Zero := by
    have hcases : B0.tiles a c = (markSafe (mkGame s).board
        (validSafezone x y (mkGame s).board.width
          (mkGame s).board.height)).tiles a c ∨
        (B0.tiles a c).state = TileState.Mine :=
      placeMines_tile_cases picks _ 0 a c
    rcases hcases with hsame | hmine
    · rw [hsame, ((markSafe_spec _ _).2.2.2 a c).1]
      rfl
    · exact absurd hmine hnm0
  obtain ⟨fw, fh, fm, ft⟩ := countFold_spec B0 B0.width B0.height
    (allCoords B0.width B0.height) B0 (fun _ => 0) rfl rfl
    (fun q _ => rfl) (fun q _ => rfl)
  have hmain := ft (a, c) hnm0
  have hstate : ((countPass B0).tiles a c).state =
      addN ((B0.tiles a c).state)
        (0 + (allCoords B0.width B0.height).countP (fun m =>
          decide ((B0.tiles m.1 m.2).state = TileState.Mine ∧
            (a, c) ∈ neighborsOf m B0.width B0.height))) :=
    congrArg Tile.state hmain
  have hKsym : (allCoords B0.width B0.height).countP (fun m =>
      decide ((B0.tiles m.1 m.2).state = TileState.Mine ∧
        (a, c) ∈ neighborsOf m B0.width B0.height)) =
      (allCoords B0.width B0.height).countP (fun m =>
        decide (m ∈ neighborsOf (a, c) B0.width B0.height) &&
          decide ((B0.tiles m.1 m.2).state = TileState.Mine)) := by
    apply List.countP_congr
    intro m hm
    rw [mem_allCoords] at hm
    simp only [decide_eq_true_eq, Bool.and_eq_true]
    constructor
    · rintro ⟨h1, h2⟩
      rw [neighborsOf_symm hm.1 hm.2] at h2
      exact ⟨h2.2.2, h1⟩
    · rintro ⟨h1, h2⟩
      refine ⟨h2, ?_⟩
      rw [neighborsOf_symm hm.1 hm.2]
      exact ⟨hw ▸ ha, hh ▸ hc, h1⟩
  have hKres : (allCoords B0.width B0.height).countP (fun m =>
      decide (m ∈ neighborsOf (a, c) B0.width B0.height) &&
        decide ((B0.tiles m.1 m.2).state = TileState.Mine)) =
      (neighborsOf (a, c) B0.width B0.height).countP (fun m =>
        decide ((B0.tiles m.1 m.2).state = TileState.Mine)) :=
    countP_restrict _ _ _ _ (allCoords_nodup _ _) (neighborsOf_nodup _ _ _)
      (fun q hq => mem_allCoords.mpr
        ⟨(mem_neighborsOf.mp hq).1, (mem_neighborsOf.mp hq).2.1⟩)
      (fun q => by simp)
  have hmnc : mineNeighborCount (countPass B0) (a, c) =
      (neighborsOf (a, c) B0.width B0.height).countP (fun m =>
        decide ((B0.tiles m.1 m.2).state = TileState.Mine)) := by
    unfold mineNeighborCount
    rw [show (countPass B0).width = B0.width from fw,
      show (countPass B0).height = B0.height from fh]
    apply List.countP_congr
    intro q hq
    simp only [decide_eq_true_eq]
    exact (countPass_mine_iff B0 q.1 q.2).1
  have hbound : mineNeighborCount (countPass B0) (a, c) ≤ 8 := by
    rw [hmnc]
    calc (neighborsOf (a, c) B0.width B0.height).countP (fun m =>
        decide ((B0.tiles m.1 m.2).state = TileState.Mine)) ≤
        (neighborsOf (a, c) B0.width B0.height).length := List.countP_le_length _
      _ ≤ SCAN.length := List.length_filterMap_le _ _
      _ = 8 := rfl
  constructor
  · rw [hboard, hstate, hzero, Nat.zero_add, addN_zero_ofCount]
    exact congrArg ofCount (by rw [hKsym, hKres, hmnc])
  · rw [hboard]
    exact hbound

/-- Witness for `neighbor_count_correct` at the concrete cell `(4, 0)`,
which neighbours the single mine and shows count one. -/
theorem neighbor_count_correct_witness :
    ((generate [(5, 0)] demoGame 0 0).board.tiles 4 0).state =
      ofCount (mineNeighborCount (generate [(5, 0)] demoGame 0 0).board (4, 0)) ∧
    mineNeighborCount (generate [(5, 0)] demoGame 0 0).board (4, 0) ≤ 8 :=
  neighbor_count_correct demoSettings demoGame [(5, 0)] 0 0 4 0 rfl
    (by decide) (by decide) (by decide)

theorem sweepStep_cases (st : Minesweeper × List (Nat × Nat)) (off : Int × Int)
    (front : Nat × Nat) (hfront : st.2.head? = some front) :
    sweepStep st off = st ∨
    ((st.1.board.tiles front.1 front.2).state = TileState.Zero ∧
     ∃ t, targetOf front off st.1.board.width st.1.board.height = some t ∧
       (st.1.board.tiles t.1 t.2).swept = false ∧
       sweepStep st off =
         ((st.1.setSwept t.1 t.2).addEvent
           (GameEvent.RevealTile t.1 t.2
             ((st.1.setSwept t.1 t.2).board.tiles t.1 t.2)),
          st.2 ++ [t])) := by
  unfold sweepStep
  rw [hfront]
  simp only []
  by_cases h1 : (st.1.board.tiles front.1 front.2).state ≠ TileState.Zero
  · rw [if_pos h1]
    exact Or.inl rfl
  · rw [if_neg h1]
    push_neg at h1
    by_cases hb : (front.1 : Int) + off.1 ≥ (st.1.board.width : Int) ∨
        (front.2 : Int) + off.2 ≥ (st.1.board.height : Int) ∨
        (front.1 : Int) + off.1 < 0 ∨ (front.2 : Int) + off.2 < 0
    · rw [if_pos hb]
      exact Or.inl rfl
    · rw [if_neg hb]
      push_neg at hb
      have htg : targetOf front off st.1.board.width st.1.board.height =
          some (((front.1 : Int) + off.1).toNat, ((front.2 : Int) + off.2).toNat) := by
        rw [targetOf_eq_some]
        obtain ⟨b1, b2, b3, b4⟩ := hb
        refine ⟨by omega, by omega, by omega, by omega⟩
      by_cases hsw : (st.1.board.tiles (((front.1 : Int) + off.1).toNat)
          (((front.2 : Int) + off.2).toNat)).swept
      · rw [if_pos hsw]
        exact Or.inl rfl
      · rw [if_neg hsw]
        exact Or.inr ⟨h1, _, htg, by simpa using hsw, rfl⟩

theorem sweepStep_tiles (st : Minesweeper × List (Nat × Nat)) (off : Int × Int)
    (a c : Nat) :
    (sweepStep st off).1.board.tiles a c = st.1.board.tiles a c ∨
    (sweepStep st off).1.board.tiles a c =
      { st.1.board.tiles a c with swept := true } := by
  rcases hh : st.2.head? with _ | front
  · left
    unfold sweepStep
    rw [hh]
  · rcases sweepStep_cases st off front hh with heq | ⟨_, t, _, _, heq⟩
    · left
      rw [heq]
    · rw [heq]
      by_cases hac : a = t.1 ∧ c = t.2
    
      · right
        simp [Minesweeper.setSwept, GameBoard.setTile, hac]
      · left
        simp [Minesweeper.setSwept, GameBoard.setTile, hac]

theorem sweepStep_dims (st : Minesweeper × List (Nat × Nat)) (off : Int × Int) :
    (sweepStep st off).1.board.width = st.1.board.width ∧
    (sweepStep st off).1.board.height = st.1.board.height := by
  rcases hh : st.2.head? with _ | front
  · unfold sweepStep
    rw [hh]
    exact ⟨rfl, rfl⟩
  · rcases sweepStep_cases st off front hh with heq | ⟨_, t, _, _, heq⟩ <;>
      rw [heq] <;> exact ⟨rfl, rfl⟩

theorem sweepStep_queue (st : Minesweeper × List (Nat × Nat)) (off : Int × Int) :
    ∃ ext, (sweepStep st off).2 = st.2 ++ ext := by
  rcases hh : st.2.head? with _ | front
  · refine ⟨[], ?_⟩
    unfold sweepStep
    rw [hh]
    simp
  · rcases sweepStep_cases st off front hh with heq | ⟨_, t, _, _, heq⟩
    · exact ⟨[], by rw [heq]; simp⟩
    · exact ⟨[t], by rw [heq]⟩

theorem sweepStep_swept_mono (st : Minesweeper × List (Nat × Nat))
    (off : Int × Int) (a c : Nat)
    (h : (st.1.board.tiles a c).swept = true) :
    ((sweepStep st off).1.board.tiles a c).swept = true := by
  rcases sweepStep_tiles st off a c with ht | ht <;> rw [ht]
  exact h

theorem sweepStep_state_eq (st : Minesweeper × List (Nat × Nat))
    (off : Int × Int) (a c : Nat) :
    ((sweepStep st off).1.board.tiles a c).state =
      (st.1.board.tiles a c).state := by
  rcases sweepStep_tiles st off a c with ht | ht <;> rw [ht]

theorem sweepStep_target_swept (st : Minesweeper × List (Nat × Nat))
    (off : Int × Int) (front : Nat × Nat) (hfront : st.2.head? = some front)
    (hzero : (st.1.board.tiles front.1 front.2).state = TileState.Zero)
    (t : Nat × Nat)
    (ht : targetOf front off st.1.board.width st.1.board.height = some t) :
    ((sweepStep st off).1.board.tiles t.1 t.2).swept = true := by
  unfold sweepStep
  rw [hfront]
  simp only []
  rw [if_neg (by rw [hzero]; simp)]
  rw [targetOf_eq_some] at ht
  obtain ⟨e1, e2, e3, e4⟩ := ht
  rw [if_neg (by push_neg; refine ⟨by omega, by omega, by omega, by omega⟩)]
  have he1 : ((front.1 : Int) + off.1).toNat = t.1 := by omega
  have he2 : ((front.2 : Int) + off.2).toNat = t.2 := by omega
  rw [he1, he2]
  by_cases hsw : (st.1.board.tiles t.1 t.2).swept
  · rw [if_pos hsw]
    exact hsw
  · rw [if_neg hsw]
    simp [Minesweeper.setSwept, GameBoard.setTile]

theorem mem_boardPositions {b : GameBoard} {p : Nat × Nat} :
    p ∈ boardPositions b ↔ p.1 < b.width ∧ p.2 < b.height := by
  simp [boardPositions, Finset.mem_product]

theorem unsweptCount_setSwept (b : GameBoard) (t : Nat × Nat)
    (h1 : t.1 < b.width) (h2 : t.2 < b.height)
    (hsw : (b.tiles t.1 t.2).swept = false) :
    unsweptCount b =
      unsweptCount (b.setTile t.1 t.2
        { b.tiles t.1 t.2 with swept := true }) + 1 := by
  unfold unsweptCount
  have hmem : t ∈ (boardPositions b).filter
      (fun p => ¬(b.tiles p.1 p.2).swept = true) := by
    rw [Finset.mem_filter]
    exact ⟨mem_boardPositions.mpr ⟨h1, h2⟩, by rw [hsw]; simp⟩
  have hbp : boardPositions (b.setTile t.1 t.2
      { b.tiles t.1 t.2 with swept := true }) = boardPositions b := rfl
  have hset : (boardPositions (b.setTile t.1 t.2
      { b.tiles t.1 t.2 with swept := true })).filter
        (fun p => ¬((b.setTile t.1 t.2
          { b.tiles t.1 t.2 with swept := true }).tiles p.1 p.2).swept = true) =
      ((boardPositions b).filter
        (fun p => ¬(b.tiles p.1 p.2).swept = true)).erase t := by
    rw [hbp]
    ext q
    rw [Finset.mem_erase, Finset.mem_filter, Finset.mem_filter]
    by_cases hq : q.1 = t.1 ∧ q.2 = t.2
    · have hqt : q = t := by
        cases q; cases t
        simp only [Prod.mk.injEq]
        exact hq
      subst hqt
      simp [GameBoard.setTile, hq]
    · have hqt : q ≠ t := by
        rintro rfl
        exact hq ⟨rfl, rfl⟩
      simp [GameBoard.setTile, hq, hqt]
  rw [hset, Finset.card_erase_of_mem hmem]
  have hpos : 0 < ((boardPositions b).filter
      (fun p => ¬(b.tiles p.1 p.2).swept = true)).card :=
    Finset.card_pos.mpr ⟨t, hmem⟩
  omega

theorem sweepStep_measure (st : Minesweeper × List (Nat × Nat))
    (off : Int × Int) :
    unsweptCount (sweepStep st off).1.board + (sweepStep st off).2.length =
      unsweptCount st.1.board + st.2.length := by
  rcases hh : st.2.head? with _ | front
  · unfold sweepStep
    rw [hh]
  · rcases sweepStep_cases st off front hh with heq | ⟨_, t, htg, hsw, heq⟩
    · rw [heq]
    · rw [heq]
      rw [targetOf_eq_some] at htg
      obtain ⟨e1, e2, e3, e4⟩ := htg
      have hcnt : unsweptCount st.1.board =
          unsweptCount ((st.1.setSwept t.1 t.2).board) + 1 :=
        unsweptCount_setSwept st.1.board t e3 e4 hsw
      simp only [addEvent_board, List.length_append, List.length_cons,
        List.length_nil]
      omega

theorem sweepFold_measure (offs : List (Int × Int)) :
    ∀ st : Minesweeper × List (Nat × Nat),
      unsweptCount (offs.foldl sweepStep st).1.board +
        (offs.foldl sweepStep st).2.length =
      unsweptCount st.1.board + st.2.length := by
  induction offs with
  | nil => intro st; rfl
  | cons off rest ih =>
    intro st
    rw [List.foldl_cons, ih, sweepStep_measure]

theorem sweepFold_swept_mono (offs : List (Int × Int)) :
    ∀ (st : Minesweeper × List (Nat × Nat)) (a c : Nat),
      (st.1.board.tiles a c).swept = true →
      ((offs.foldl sweepStep st).1.board.tiles a c).swept = true := by
  induction offs with
  | nil => intro st a c h; exact h
  | cons off rest ih =>
    intro st a c h
    rw [List.foldl_cons]
    exact ih _ a c (sweepStep_swept_mono st off a c h)

theorem sweepFold_queue (offs : List (Int × Int)) :
    ∀ st : Minesweeper × List (Nat × Nat),
      ∃ ext, (offs.foldl sweepStep st).2 = st.2 ++ ext := by
  induction offs with
  | nil => intro st; exact ⟨[], by simp⟩
  | cons off rest ih =>
    intro st
    obtain ⟨e1, he1⟩ := sweepStep_queue st off
    obtain ⟨e2, he2⟩ := ih (sweepStep st off)
    exact ⟨e1 ++ e2, by rw [List.foldl_cons, he2, he1, List.append_assoc]⟩

theorem sweepFold_state_eq (offs : List (Int × Int)) :
    ∀ (st : Minesweeper × List (Nat × Nat)) (a c : Nat),
      ((offs.foldl sweepStep st).1.board.tiles a c).state =
        (st.1.board.tiles a c).state := by
  induction offs with
  | nil => intro st a c; rfl
  | cons off rest ih =>
    intro st a c
    rw [List.foldl_cons, ih, sweepStep_state_eq]

theorem InRegion_empty {b0 : GameBoard} {s p : Nat × Nat} (hs : EmptyAt b0 s)
    (hp : InRegion b0 s p) : EmptyAt b0 p := by
  induction hp with
  | refl => exact hs
  | tail _ hstep _ => exact hstep.2.1

theorem InClosure_empty_mem_region {b0 : GameBoard} {s p : Nat × Nat}
    (hs : EmptyAt b0 s) (hp : InClosure b0 s p) (hpe : EmptyAt b0 p) :
    InRegion b0 s p := by
  rcases hp with h | ⟨q, hq, hmem⟩
  · exact h
  · exact Relation.ReflTransGen.tail hq ⟨InRegion_empty hs hq, hpe, hmem⟩

theorem sweepFold_inv (b0 : GameBoard) (s : Nat × Nat) (hs : EmptyAt b0 s)
    (front : Nat × Nat) (rest : List (Nat × Nat))
    (offs : List (Int × Int)) (hoffs : ∀ off ∈ offs, off ∈ SCAN)
    (st : Minesweeper × List (Nat × Nat))
    (hq : st.2 = front :: rest)
    (hinv : CascadeInv b0 s st.1 st.2) :
    CascadeInv b0 s (offs.foldl sweepStep st).1 (offs.foldl sweepStep st).2 ∧
    ∃ ext, (offs.foldl sweepStep st).2 = (front :: rest) ++ ext := by
  refine foldl_induction sweepStep offs st
    (fun st' => CascadeInv b0 s st'.1 st'.2 ∧
      ∃ ext, st'.2 = (front :: rest) ++ ext)
    ⟨hinv, [], by rw [hq, List.append_nil]⟩ ?_
  rintro st' off hoff ⟨hinv', ext', hext'⟩
  have hhead : st'.2.head? = some front := by
    rw [hext']
    rfl
  rcases sweepStep_cases st' off front hhead with heq | ⟨hzero, t, htg, hsw, heq⟩
  · rw [heq]
    exact ⟨hinv', ext', hext'⟩
  · unfold CascadeInv at hinv'
    obtain ⟨hdw, hdh, hI0, hI1, hI2, hI3, hI4⟩ := hinv'
    have htg' : targetOf front off b0.width b0.height = some t := by
      rw [← hdw, ← hdh]
      exact htg
    have htb : t.1 < b0.width ∧ t.2 < b0.height := by
      rw [targetOf_eq_some] at htg'
      exact ⟨htg'.2.2.1, htg'.2.2.2⟩
    have htn : t ∈ neighborsOf front b0.width b0.height :=
      List.mem_filterMap.mpr ⟨off, hoffs off hoff, htg'⟩
    have hfmem : front ∈ st'.2 := by
      rw [hext']
      exact List.mem_append_left _ (List.mem_cons_self front rest)
    obtain ⟨hfb, hfsw⟩ := hI1 front hfmem
    have hfzero : (b0.tiles front.1 front.2).state = TileState.Zero := by
      have := congrArg Tile.state (hI0 front.1 front.2)
      rw [hzero] at this
      exact this.symm
    have hfreg : InRegion b0 s front :=
      InClosure_empty_mem_region hs (hI2 front.1 front.2 hfsw hfb) ⟨hfb, hfzero⟩
    have htclo : InClosure b0 s t := Or.inr ⟨front, hfreg, htn⟩
    have hB' : ∀ a c, (st'.1.setSwept t.1 t.2).board.tiles a c =
        if a = t.1 ∧ c = t.2 then
          { st'.1.board.tiles t.1 t.2 with swept := true }
        else st'.1.board.tiles a c := fun a c => rfl
    have hmono : ∀ a c, (st'.1.board.tiles a c).swept = true →
        ((st'.1.setSwept t.1 t.2).board.tiles a c).swept = true := by
      intro a c h
      rw [hB']
      split_ifs with hac
      · rfl
      · exact h
    have htsw : ((st'.1.setSwept t.1 t.2).board.tiles t.1 t.2).swept = true := by
      rw [hB']
      simp
    rw [heq]
    refine ⟨⟨hdw, hdh, ?_, ?_, ?_, ?_, ?_⟩, ext' ++ [t], by
      rw [hext', List.append_assoc]⟩
    · intro a c
      rw [addEvent_board, hB']
      split_ifs with hac
      · rw [show b0.tiles a c = b0.tiles t.1 t.2 from by rw [hac.1, hac.2], hI0 t.1 t.2]
      · exact hI0 a c
    · intro p hp
      rcases List.mem_append.mp hp with hp | hp
      · obtain ⟨hpb, hpsw⟩ := hI1 p hp
        exact ⟨hpb, hmono p.1 p.2 hpsw⟩
      · rw [List.mem_singleton.mp hp]
        exact ⟨⟨htb.1, htb.2⟩, htsw⟩
    · intro a c hsw' hb
      rw [addEvent_board, hB'] at hsw'
      by_cases hac : a = t.1 ∧ c = t.2
      · rw [show ((a, c) : Nat × Nat) = t from by
          cases t; simp only [Prod.mk.injEq]; exact ⟨hac.1, hac.2⟩]
        exact htclo
      · rw [if_neg hac] at hsw'
        exact hI2 a c hsw' hb
    · exact hmono s.1 s.2 hI3
    · intro a c ha hc hsw' hz hnq u hu
      have hnq' : (a, c) ∉ st'.2 := fun hx =>
        hnq (List.mem_append_left _ hx)
      have hact : ¬(a = t.1 ∧ c = t.2) := by
        rintro ⟨h1, h2⟩
        exact hnq (List.mem_append_right _ (by
          rw [List.mem_singleton]
          cases t
          simp only [Prod.mk.injEq]
          exact ⟨h1, h2⟩))
      rw [addEvent_board, hB', if_neg hact] at hsw'
      exact hmono u.1 u.2 (hI4 a c ha hc hsw' hz hnq' u hu)

theorem sweepFold_front_processed (b0 : GameBoard) (s : Nat × Nat)
    (hs : EmptyAt b0 s) (front : Nat × Nat) (rest : List (Nat × Nat))
    (st : Minesweeper × List (Nat × Nat)) (hq : st.2 = front :: rest)
    (hinv : CascadeInv b0 s st.1 st.2)
    (hzero : (b0.tiles front.1 front.2).state = TileState.Zero) :
    ∀ t ∈ neighborsOf front b0.width b0.height,
      ((SCAN.foldl sweepStep st).1.board.tiles t.1 t.2).swept = true := by
  intro t ht
  obtain ⟨off, hoffmem, htg⟩ := List.mem_filterMap.mp ht
  obtain ⟨l1, l2, hSCAN⟩ := List.append_of_mem hoffmem
  rw [hSCAN, List.foldl_append, List.foldl_cons]
  have hsub1 : ∀ o ∈ l1, o ∈ SCAN := fun o ho => by
    rw [hSCAN]
    exact List.mem_append_left _ ho
  obtain ⟨hinv1, ext1, hext1⟩ :=
    sweepFold_inv b0 s hs front rest l1 hsub1 st hq hinv
  have hhead1 : (l1.foldl sweepStep st).2.head? = some front := by
    rw [hext1]
    rfl
  have hstq : (st.1.board.tiles front.1 front.2).state = TileState.Zero := by
    unfold CascadeInv at hinv
    have := congrArg Tile.state (hinv.2.2.1 front.1 front.2)
    rw [this]
    exact hzero
  have hfzero1 : ((l1.foldl sweepStep st).1.board.tiles front.1
      front.2).state = TileState.Zero := by
    rw [sweepFold_state_eq l1 st front.1 front.2]
    exact hstq
  unfold CascadeInv at hinv1
  have htg1 : targetOf front off (l1.foldl sweepStep st).1.board.width
      (l1.foldl sweepStep st).1.board.height = some t := by
    rw [hinv1.1, hinv1.2.1]
    exact htg
  have hafter := sweepStep_target_swept (l1.foldl sweepStep st) off front
    hhead1 hfzero1 t htg1
  exact sweepFold_swept_mono l2 _ t.1 t.2 hafter

theorem sweepLoopF_inv (b0 : GameBoard) (s : Nat × Nat) (hs : EmptyAt b0 s) :
    ∀ (fuel : Nat) (g : Minesweeper) (q : List (Nat × Nat)),
      unsweptCount g.board + q.length ≤ fuel →
      CascadeInv b0 s g q →
      CascadeInv b0 s (sweepLoopF fuel g q) [] := by
  intro fuel
  induction fuel with
  | zero =>
    intro g q hmeas hinv
    cases q with
    | nil => exact hinv
    | cons front rest =>
      exfalso
      rw [List.length_cons] at hmeas
      omega
  | succ n ih =>
    intro g q hmeas hinv
    cases q with
    | nil => exact hinv
    | cons front rest =>
      rw [sweepLoopF]
      obtain ⟨hinv', ext, hext⟩ := sweepFold_inv b0 s hs front rest SCAN
        (fun o ho => ho) (g, front :: rest) rfl hinv
      have hproc := sweepFold_front_processed b0 s hs front rest
        (g, front :: rest) rfl hinv
      have htail : (sweepInner g (front :: rest)).2.tail = rest ++ ext := by
        show (SCAN.foldl sweepStep (g, front :: rest)).2.tail = rest ++ ext
        rw [hext, List.cons_append]
        rfl
      rw [htail]
      apply ih
      · have hms : unsweptCount (SCAN.foldl sweepStep (g, front :: rest)).1.board +
            (SCAN.foldl sweepStep (g, front :: rest)).2.length =
            unsweptCount g.board + (front :: rest).length :=
          sweepFold_measure SCAN (g, front :: rest)
        have hlen : (SCAN.foldl sweepStep (g, front :: rest)).2.length =
            (rest ++ ext).length + 1 := by
          rw [hext, List.cons_append, List.length_cons]
        rw [List.length_cons] at hms hmeas
        show unsweptCount (SCAN.foldl sweepStep (g, front :: rest)).1.board +
          (rest ++ ext).length ≤ n
        omega
      · unfold CascadeInv at hinv' ⊢
        obtain ⟨hdw, hdh, hI0, hI1, hI2, hI3, hI4⟩ := hinv'
        refine ⟨hdw, hdh, hI0, ?_, hI2, hI3, ?_⟩
        · intro p hp
          exact hI1 p (by rw [hext, List.cons_append]; exact List.mem_cons_of_mem _ hp)
        · intro a c ha hc hsw hz hnq u hu
          by_cases hfr : (a, c) = front
          · have hz' : (b0.tiles front.1 front.2).state = TileState.Zero := by
              rw [← hfr]
              exact hz
            have hu' : u ∈ neighborsOf front b0.width b0.height := by
              rw [← hfr]
              exact hu
            exact hproc hz' u hu'
          · refine hI4 a c ha hc hsw hz ?_ u hu
            rw [hext, List.cons_append]
            intro hx
            rcases List.mem_cons.mp hx with hx | hx
            · exact hfr hx
            · exact hnq hx

theorem closure_subset_swept (b0 : GameBoard) (s : Nat × Nat)
    (hs : EmptyAt b0 s) (r : Minesweeper) (hinv : CascadeInv b0 s r []) :
    ∀ p : Nat × Nat, InClosure b0 s p →
      (r.board.tiles p.1 p.2).swept = true := by
  unfold CascadeInv at hinv
  obtain ⟨_, _, hI0, _, _, hI3, hI4⟩ := hinv
  have hreg : ∀ p : Nat × Nat, InRegion b0 s p →
      (r.board.tiles p.1 p.2).swept = true := by
    intro p hp
    induction hp with
    | refl => exact hI3
    | tail hab hbc ih =>
      exact hI4 _ _ hbc.1.1.1 hbc.1.1.2 ih hbc.1.2 (List.not_mem_nil _) _ hbc.2.2
  intro p hp
  rcases hp with hp | ⟨q, hq, hmem⟩
  · exact hreg p hp
  · have hqe := InRegion_empty hs hq
    exact hI4 q.1 q.2 hqe.1.1 hqe.1.2 (hreg q hq) hqe.2 (List.not_mem_nil _) p hmem

theorem unsweptCount_le (b : GameBoard) :
    unsweptCount b ≤ b.width * b.height := by
  unfold unsweptCount
  calc ((boardPositions b).filter
      (fun p => ¬(b.tiles p.1 p.2).swept = true)).card ≤
      (boardPositions b).card := Finset.card_filter_le _ _
    _ = b.width * b.height := by
      rw [boardPositions, Finset.card_product, Finset.card_range,
        Finset.card_range]

/-- C1: starting from a freshly generated Playing board (no tile swept
yet), sweeping a zero-count tile `(x, y)` marks swept exactly the cascade
closure of `(x, y)`: its maximal 8-connected zero-count region together
with every cell adjacent to that region, and nothing else. -/
theorem cascade_closure (picks : List (Nat × Nat)) (g : Minesweeper)
    (x y : Nat)
    (hplay : g.state = GameState.Playing)
    (hnone : ∀ a, a < g.board.width → ∀ c, c < g.board.height →
      (g.board.tiles a c).swept = false)
    (hx : x < g.board.width) (hy : y < g.board.height)
    (hzero : (g.board.tiles x y).state = TileState.Zero)
    (hmod : (g.board.tiles x y).modifier = none) :
    ∀ a, a < g.board.width → ∀ c, c < g.board.height →
      (((sweep picks g x y).board.tiles a c).swept = true ↔
        InClosure g.board (x, y) (a, c)) := by
  have hsweep : sweep picks g x y =
      (sweepLoopF (g.board.width * g.board.height + 1)
        (((g.setSwept x y).addEvent (GameEvent.RevealTile x y
          ((g.setSwept x y).board.tiles x y))).addEvent GameEvent.SweepBegin)
        [(x, y)]).addEvent GameEvent.SweepDone := by
    unfold sweep
    rw [if_neg (show ¬(GameState.Empty = g.state) from by rw [hplay]; simp)]
    rw [if_neg (show ¬(g.state ≠ GameState.Playing) from by rw [hplay]; simp)]
    simp only []
    rw [if_neg (show ¬((g.board.tiles x y).modifier.isSome = true) from by
      rw [hmod]; simp)]
    rw [if_neg (show ¬((g.board.tiles x y).state = TileState.Mine) from by
      rw [hzero]; simp)]
    rfl
  have hEmpty : EmptyAt g.board (x, y) := ⟨⟨hx, hy⟩, hzero⟩
  have hB2 : ∀ a c, (((g.setSwept x y).addEvent (GameEvent.RevealTile x y
      ((g.setSwept x y).board.tiles x y))).addEvent
        GameEvent.SweepBegin).board.tiles a c =
      (if a = x ∧ c = y then { g.board.tiles x y with swept := true }
       else g.board.tiles a c) := fun a c => rfl
  have hinv0 : CascadeInv g.board (x, y)
      (((g.setSwept x y).addEvent (GameEvent.RevealTile x y
        ((g.setSwept x y).board.tiles x y))).addEvent GameEvent.SweepBegin)
      [(x, y)] := by
    unfold CascadeInv
    refine ⟨rfl, rfl, ?_, ?_, ?_, ?_, ?_⟩
    · intro a c
      rw [hB2 a c]
      split_ifs with hac
      · rw [show g.board.tiles a c = g.board.tiles x y from by
          rw [hac.1, hac.2]]
      · rfl
    · intro p hp
      rw [List.mem_singleton.mp hp]
      refine ⟨⟨hx, hy⟩, ?_⟩
      rw [hB2, if_pos ⟨rfl, rfl⟩]
    · intro a c hsw hb
      by_cases hac : a = x ∧ c = y
      · rw [show ((a, c) : Nat × Nat) = (x, y) from by
          rw [hac.1, hac.2]]
        exact Or.inl Relation.ReflTransGen.refl
      · rw [hB2, if_neg hac] at hsw
        rw [hnone a hb.1 c hb.2] at hsw
        exact absurd hsw (by simp)
    · rw [hB2, if_pos ⟨rfl, rfl⟩]
    · intro a c ha hc hsw hz hnq u hu
      exfalso
      by_cases hac : a = x ∧ c = y
      · exact hnq (by rw [List.mem_singleton]; simp [Prod.ext_iff, hac.1, hac.2])
      · rw [hB2, if_neg hac] at hsw
        rw [hnone a ha c hc] at hsw
        exact Bool.noConfusion hsw
  have hfuel : unsweptCount (((g.setSwept x y).addEvent
      (GameEvent.RevealTile x y ((g.setSwept x y).board.tiles x y))).addEvent
        GameEvent.SweepBegin).board + [(x, y)].length ≤
      g.board.width * g.board.height + 1 := by
    have hle : unsweptCount (((g.setSwept x y).addEvent
        (GameEvent.RevealTile x y ((g.setSwept x y).board.tiles x y))).addEvent
          GameEvent.SweepBegin).board ≤ g.board.width * g.board.height :=
      unsweptCount_le _
    rw [List.length_cons, List.length_nil]
    omega
  have hinvr := sweepLoopF_inv g.board (x, y) hEmpty
    (g.board.width * g.board.height + 1) _ [(x, y)] hfuel hinv0
  intro a ha c hc
  rw [hsweep, addEvent_board]
  constructor
  · intro hsw
    unfold CascadeInv at hinvr
    exact hinvr.2.2.2.2.1 a c hsw ⟨ha, hc⟩
  · intro hclo
    exact closure_subset_swept g.board (x, y) hEmpty _ hinvr (a, c) hclo

/-- Witness for `cascade_closure`: the freshly generated 10×1 demonstration
board, swept at the zero-count corner `(0, 0)`. -/
theorem cascade_closure_witness :
    demoGen.state = GameState.Playing ∧
    (demoGen.board.tiles 0 0).state = TileState.Zero ∧
    ∀ a, a < demoGen.board.width → ∀ c, c < demoGen.board.height →
      (((sweep [] demoGen 0 0).board.tiles a c).swept = true ↔
        InClosure demoGen.board (0, 0) (a, c)) :=
  ⟨rfl, by decide,
    cascade_closure [] demoGen 0 0 rfl (by decide) (by decide) (by decide)
      (by decide) (by decide)⟩
